import Mathlib

/-!
# recovermov: carving QuickTime/MOV files out of a raw byte stream

A shallow embedding of `src/recovermov.cpp` and theorems about it.

Modelling conventions.

* A byte is a `Fin 256`.  A `std::string` is the list of its bytes, and the
  output file (`std::ofstream`) is the list of the bytes put into it.
* The input `std::ifstream` is the record `ifstream`: the bytes of the file, the
  read position of the file buffer and the two state bits the program can set,
  `eofbit` and `failbit`.  The operations follow the C++11 stream semantics:
  every input function first builds a sentry, which fails (and sets `failbit`)
  unless the stream is `good()`; `get()` at the end of the file sets
  `eofbit | failbit` and returns `EOF = -1`; `seekg` first clears `eofbit` and
  then does nothing when `fail()` holds; `tellg` returns `-1` when `fail()`
  holds.  The input is a regular file: seeking beyond its end succeeds, seeking
  before its start fails.
* `size_t` is 64 bits wide and `int` 32 bits wide (LP64), and the arithmetic on
  the atom size wraps accordingly.  File offsets and the block size are natural
  numbers: they are taken to fit `std::streamoff`, so that no seek overflows.
* Loops whose termination is not structural take a fuel argument and return
  `none` when it runs out.
* `MainState.probes` is a ghost field: it records the buffer position of every
  call of `is_mov_file` made by the scan loop.
-/

namespace Recovermov

/-- One byte of the input or of an output file. -/
abbrev Byte := Fin 256

/-- State of the input stream `std::ifstream infile`. -/
structure ifstream where
  data : List Byte
  pos : Nat
  eofbit : Bool
  failbit : Bool
deriving DecidableEq, Repr

namespace ifstream

/-- The call `infile.good()`. -/
def good (s : ifstream) : Bool := !s.eofbit && !s.failbit

/-- The call `infile.fail()`. -/
def fail (s : ifstream) : Bool := s.failbit

/-- The call `infile.eof()`. -/
def eof (s : ifstream) : Bool := s.eofbit

/-- The call `infile.get()`: the next byte as an `int`, or `EOF = -1`. -/
def get (s : ifstream) : Int × ifstream :=
  if s.good then
    match s.data[s.pos]? with
    | some b => ((b.val : Int), { s with pos := s.pos + 1 })
    | none => (-1, { s with eofbit := true, failbit := true })
  else
    (-1, { s with failbit := true })

/-- The call `infile.seekg(off, std::ios_base::cur)`. -/
def seekg_cur (s : ifstream) (off : Int) : ifstream :=
  let s1 := { s with eofbit := false }
  if s1.failbit then s1
  else if 0 ≤ (s1.pos : Int) + off then { s1 with pos := ((s1.pos : Int) + off).toNat }
  else { s1 with failbit := true }

/-- The call `infile.seekg(p)` with an absolute position. -/
def seekg (s : ifstream) (p : Int) : ifstream :=
  let s1 := { s with eofbit := false }
  if s1.failbit then s1
  else if 0 ≤ p then { s1 with pos := p.toNat }
  else { s1 with failbit := true }

/-- The call `infile.tellg()`: the position, or `-1` when the stream is not good. -/
def tellg (s : ifstream) : Int × ifstream :=
  if s.good then ((s.pos : Int), s) else (-1, { s with failbit := true })

end ifstream

/-- Conversion of an `int` to `unsigned char`. -/
def to_uchar (c : Int) : Nat := (c % 256).toNat

/-- Conversion of an `int` to `char`, kept as the byte with the same bit pattern. -/
def to_char (c : Int) : Byte := Fin.ofNat (c % 256).toNat

/-- Conversion of a signed integer to `size_t`. -/
def to_size_t (i : Int) : Nat := (i % 2 ^ 64).toNat

/-- The expression `byte << k` on an `unsigned char`: the operand is promoted to
`int`, and the result is the 32-bit two's complement value. -/
def shl_int (byte : Nat) (k : Nat) : Int :=
  let v : Nat := (byte * 2 ^ k) % 2 ^ 32
  if v < 2 ^ 31 then (v : Int) else (v : Int) - 2 ^ 32

/-- The statement `size += e` on a `size_t` with an `int` operand. -/
def size_add (size : Nat) (e : Int) : Nat := (size + to_size_t e) % 2 ^ 64

/-- The function `read_size`. -/
def read_size (infile : ifstream) : Nat × ifstream :=
  let size := 0
  let (c, infile) := infile.get
  let byte := to_uchar c
  let size := size_add size (shl_int byte 24)
  let (c, infile) := infile.get
  let byte := to_uchar c
  let size := size_add size (shl_int byte 16)
  let (c, infile) := infile.get
  let byte := to_uchar c
  let size := size_add size (shl_int byte 8)
  let (c, infile) := infile.get
  let byte := to_uchar c
  let size := size_add size (byte : Int)
  (size, infile)

/-- The `for` loop of `read_atom_type`, with `n` rounds left. -/
def read_atom_type_loop : Nat → ifstream → List Byte → List Byte × ifstream
  | 0, infile, type => (type, infile)
  | n + 1, infile, type =>
    let (c, infile) := infile.get
    read_atom_type_loop n infile (type ++ [to_char c])

/-- The function `read_atom_type`. -/
def read_atom_type (infile : ifstream) : List Byte × ifstream :=
  read_atom_type_loop 4 infile []

/-- The function `copy_n`: `bytes` rounds of `outfile.put(infile.get())`. -/
def copy_n : ifstream → List Byte → Nat → ifstream × List Byte
  | infile, outfile, 0 => (infile, outfile)
  | infile, outfile, bytes + 1 =>
    let (c, infile) := infile.get
    copy_n infile (outfile ++ [to_char c]) bytes

/-- The string "ftyp". -/
def FTYP : List Byte := [0x66, 0x74, 0x79, 0x70]

/-- The string "moov". -/
def MOOV : List Byte := [0x6d, 0x6f, 0x6f, 0x76]

/-- The string "mdat". -/
def MDAT : List Byte := [0x6d, 0x64, 0x61, 0x74]

/-- The string "free". -/
def FREE : List Byte := [0x66, 0x72, 0x65, 0x65]

/-- The string "skip". -/
def SKIP : List Byte := [0x73, 0x6b, 0x69, 0x70]

/-- The string "wide". -/
def WIDE : List Byte := [0x77, 0x69, 0x64, 0x65]

/-- The string "pnot". -/
def PNOT : List Byte := [0x70, 0x6e, 0x6f, 0x74]

/-- The function `is_mov_file`. -/
def is_mov_file (infile : ifstream) : Bool × ifstream :=
  let infile := infile.seekg_cur 4
  if infile.fail || infile.eof then (false, infile)
  else
    let (atom_type, infile) := read_atom_type infile
    if infile.fail || infile.eof then (false, infile.seekg_cur (-4))
    else
      let infile := infile.seekg_cur (-8)
      if atom_type = FTYP then (true, infile) else (false, infile)

/-- The function `is_valid_atom_type`. -/
def is_valid_atom_type (atom_type : List Byte) : Bool :=
  if atom_type = FTYP || atom_type = MOOV || atom_type = MDAT ||
      atom_type = FREE || atom_type = SKIP || atom_type = WIDE ||
      atom_type = PNOT then true
  else false

/-- The carve loop of `main`, `while (!infile.eof()) { ... }`, on the input
stream and the bytes written to `outfile` so far. -/
def carve_loop : Nat → ifstream → List Byte → Option (ifstream × List Byte)
  | 0, _, _ => none
  | fuel + 1, infile, outfile =>
    if infile.eof then some (infile, outfile)
    else
      let (atom_size, infile) := read_size infile
      let (atom_type, infile) := read_atom_type infile
      if atom_size < 8 then some (infile, outfile)
      else if !is_valid_atom_type atom_type then some (infile, outfile)
      else
        let infile := infile.seekg_cur (-8)
        let (infile, outfile) := copy_n infile outfile atom_size
        carve_loop fuel infile outfile

/-- The part of the state of `main` that the scan loop reads and writes. -/
structure MainState where
  infile : ifstream
  mov_index : Nat
  files : List (String × List Byte)
  probes : List Nat
deriving DecidableEq, Repr

/-- Conversion of the `pos_type` returned by `tellg` to `size_t`: a file offset is
kept as it is, and `-1` becomes `2 ^ 64 - 1`. -/
def pos_to_size_t (p : Int) : Nat := if 0 ≤ p then p.toNat else to_size_t p

/-- The realignment after a carve session, followed by the block step:
`cur_pos = infile.tellg(); cur_block = cur_pos / blocksize;`
`infile.seekg(cur_block * blocksize);` and then
`infile.seekg(blocksize, std::ios_base::cur)`.
This is the source for a block size of at least 1 only: with `blocksize = 0` the
source divides by zero, while the division below yields 0.  Every statement
about `resync`, `main_body` or `main_loop` therefore assumes `1 ≤ blocksize`. -/
def resync (blocksize : Nat) (infile : ifstream) : ifstream :=
  let (p, infile) := infile.tellg
  let cur_pos := pos_to_size_t p
  let cur_block := cur_pos / blocksize
  let infile := infile.seekg ((cur_block * blocksize : Nat) : Int)
  infile.seekg_cur (blocksize : Int)

/-- One round of the body of the scan loop of `main`. -/
def main_body (blocksize : Nat) (outfilebase : String) (fuel : Nat) (st : MainState) :
    Option MainState :=
  let (found, infile) := is_mov_file st.infile
  let probes := st.probes ++ [st.infile.pos]
  if found then
    let mov_index := (st.mov_index + 1) % 2 ^ 32
    let outfilename := outfilebase ++ toString mov_index ++ ".mov"
    match carve_loop fuel infile [] with
    | none => none
    | some (infile, outfile) =>
      some { infile := resync blocksize infile, mov_index := mov_index,
             files := st.files ++ [(outfilename, outfile)], probes := probes }
  else
    some { st with infile := infile.seekg_cur (blocksize : Int), probes := probes }

/-- The scan loop of `main`, `while (!(infile.fail() || infile.eof())) { ... }`. -/
def main_loop (blocksize : Nat) (outfilebase : String) : Nat → MainState → Option MainState
  | 0, _ => none
  | fuel + 1, st =>
    if st.infile.fail || st.infile.eof then some st
    else
      match main_body blocksize outfilebase fuel st with
      | none => none
      | some st => main_loop blocksize outfilebase fuel st

/-- The state of `main` when the scan loop is entered: the input file just
opened, no output file yet. -/
def main_init (data : List Byte) (mov_index : Nat) : MainState :=
  { infile := { data := data, pos := 0, eofbit := false, failbit := false },
    mov_index := mov_index, files := [], probes := [] }

/-- The function `main` from the opening of the input file on, with enough fuel
given by the caller. -/
def main (data : List Byte) (blocksize : Nat) (outfilebase : String) (mov_index : Nat)
    (fuel : Nat) : Option MainState :=
  main_loop blocksize outfilebase fuel (main_init data mov_index)

/-! ## Auxiliary notions used in the statements -/

/-- The bytes of the input from the read position on. -/
def ifstream.rest (s : ifstream) : List Byte := s.data.drop s.pos

/-- The stream with its read position moved forward by `n`. -/
def ifstream.adv (s : ifstream) (n : Nat) : ifstream := { s with pos := s.pos + n }

/-- The unsigned 32-bit big-endian value of four bytes. -/
def be32 (b0 b1 b2 b3 : Byte) : Nat :=
  b0.val * 2 ^ 24 + b1.val * 2 ^ 16 + b2.val * 2 ^ 8 + b3.val

/-- The 64-bit `size_t` obtained from a 32-bit value that went through `int`:
values from `2 ^ 31` on are sign-extended. -/
def sext32 (v : Nat) : Nat := if v < 2 ^ 31 then v else v + (2 ^ 64 - 2 ^ 32)

/-- A well-formed atom: at least the 8 header bytes, a big-endian length field
equal to the length of the atom, and a recognized type tag. -/
def atom_ok (a : List Byte) : Bool :=
  match a with
  | b0 :: b1 :: b2 :: b3 :: c0 :: c1 :: c2 :: c3 :: _ =>
    be32 b0 b1 b2 b3 == a.length && is_valid_atom_type [c0, c1, c2, c3]
  | _ => false

/-- What may follow the last atom of a container: fewer than 8 bytes (among them
the end of the input), or 8 bytes that are not a valid header, the length being
below 8 or the tag not recognized. -/
def stops (tail : List Byte) : Bool :=
  match tail with
  | b0 :: b1 :: b2 :: b3 :: c0 :: c1 :: c2 :: c3 :: _ =>
    decide (be32 b0 b1 b2 b3 < 8) || !is_valid_atom_type [c0, c1, c2, c3]
  | _ => true

/-- The stream after the round of the carve loop that reads a header at which
carving stops: 8 bytes further on, or in end-of-file state when fewer than 8
bytes were left. -/
def carve_end (s : ifstream) : ifstream :=
  if 8 ≤ s.rest.length then s.adv 8
  else { s.adv s.rest.length with eofbit := true, failbit := true }

/-- The input stream just opened on the bytes `data`, moved to offset `p`. -/
def stream_at (data : List Byte) (p : Nat) : ifstream :=
  { data := data, pos := p, eofbit := false, failbit := false }

/-- An `ftyp` atom whose length field is `80 00 00 00`, that is `2 ^ 31`, with
the payload `pl`. -/
def big_atom_of (pl : List Byte) : List Byte :=
  0x80 :: 0 :: 0 :: 0 :: 0x66 :: 0x74 :: 0x79 :: 0x70 :: pl

/-- A well-formed `ftyp` atom of `2 ^ 31` bytes: the header and a payload of zeros. -/
def big_atom : List Byte := big_atom_of (List.replicate (2 ^ 31 - 8) 0)

/-- An input of three blocks of 16 bytes.  Block 0 is an `ftyp` atom of length 16,
block 1 is a `moov` atom of length 8 followed by 8 bytes that are no header, and
block 2 is again an `ftyp` atom of length 16. -/
def two_containers : List Byte :=
  [0, 0, 0, 16, 0x66, 0x74, 0x79, 0x70, 1, 2, 3, 4, 5, 6, 7, 8,
   0, 0, 0, 8, 0x6d, 0x6f, 0x6f, 0x76, 9, 9, 9, 9, 9, 9, 9, 9,
   0, 0, 0, 16, 0x66, 0x74, 0x79, 0x70, 1, 2, 3, 4, 5, 6, 7, 8]

/-- An input of two blocks of 16 bytes: block 0 holds no signature, block 1 is an
`ftyp` atom of length 16. -/
def late_container : List Byte :=
  [7, 7, 7, 7, 7, 7, 7, 7, 7, 7, 7, 7, 7, 7, 7, 7,
   0, 0, 0, 16, 0x66, 0x74, 0x79, 0x70, 1, 2, 3, 4, 5, 6, 7, 8]

/-- An input of 20 bytes in which the tag `ftyp` does not occur. -/
def no_signature : List Byte :=
  [0, 0, 0, 16, 0x66, 0x74, 0x79, 0x71, 1, 2, 3, 4, 5, 6, 7, 8, 0x66, 0x74, 0x79, 0]

/-- The input of the end-to-end scenario with block size 16: block 0 is the `ftyp`
atom of length 16 with the payload `payload`, block 1 is the `moov` atom of
length 8 followed by the bytes `junk`, and `rest` holds the further blocks. -/
def scenario (payload junk rest : List Byte) : List Byte :=
  0 :: 0 :: 0 :: 16 :: 0x66 :: 0x74 :: 0x79 :: 0x70 ::
    (payload ++ (0 :: 0 :: 0 :: 8 :: 0x6d :: 0x6f :: 0x6f :: 0x76 :: (junk ++ rest)))

/-- Two blocks of 16 bytes without the tag `ftyp` at their bytes 4 to 7. -/
def quiet_rest : List Byte :=
  [7, 7, 7, 7, 0x66, 0x74, 0x79, 0x71, 7, 7, 7, 7, 7, 7, 7, 7,
   0x66, 0x74, 0x79, 0x70, 0, 0, 0, 0, 7, 7, 7, 7, 7, 7, 7, 7]

/-- A container of two atoms: `ftyp` of length 8 and `moov` of length 9. -/
def container_a : List (List Byte) :=
  [[0, 0, 0, 8, 0x66, 0x74, 0x79, 0x70], [0, 0, 0, 9, 0x6d, 0x6f, 0x6f, 0x76, 1]]

/-- A container of one atom: `ftyp` of length 10. -/
def container_b : List (List Byte) :=
  [[0, 0, 0, 10, 0x66, 0x74, 0x79, 0x70, 1, 2]]

/-- An input of 4 bytes without signature followed by the containers
`container_a` and `container_b` back to back. -/
def back_to_back : List Byte :=
  [7, 7, 7, 7] ++ (container_a.flatten ++ container_b.flatten)

/-- An input of 10 bytes: a header with the tag `ftyp` and the length field 7,
followed by 2 bytes. -/
def short_length_input : List Byte := [0, 0, 0, 7, 0x66, 0x74, 0x79, 0x70, 1, 2]

/-- An input of 6 bytes that ends in the middle of the tag `ftyp`. -/
def cut_signature : List Byte := [0, 0, 0, 0, 0x66, 0x74]

/-- The stream after `k` calls of `get`. -/
def gets : Nat → ifstream → ifstream
  | 0, s => s
  | k + 1, s => gets k s.get.2

/-! ## The input stream -/

theorem good_iff (s : ifstream) : s.good = true ↔ s.eofbit = false ∧ s.failbit = false := by
  cases s with
  | mk d p e f => cases e <;> cases f <;> simp [ifstream.good]

theorem rest_adv (s : ifstream) (n : Nat) : (s.adv n).rest = s.rest.drop n := by
  simp [ifstream.rest, ifstream.adv, List.drop_drop, Nat.add_comm]

theorem adv_adv (s : ifstream) (m n : Nat) : (s.adv m).adv n = s.adv (m + n) := by
  simp [ifstream.adv, Nat.add_assoc]

theorem adv_zero (s : ifstream) : s.adv 0 = s := by
  simp [ifstream.adv]

theorem good_adv (s : ifstream) (n : Nat) : (s.adv n).good = s.good := rfl

theorem getElem?_pos (s : ifstream) : s.data[s.pos]? = s.rest.head? := by
  simp [ifstream.rest, List.head?_drop]

theorem to_char_val (b : Byte) : to_char (b.val : Int) = b := by
  apply Fin.ext
  have h := b.isLt
  simp only [to_char, Fin.ofNat]
  omega

theorem to_uchar_val (b : Byte) : to_uchar (b.val : Int) = b.val := by
  have h := b.isLt
  simp only [to_uchar]
  omega

theorem to_char_eof : to_char (-1) = 255 := by decide

theorem to_uchar_eof : to_uchar (-1) = 255 := by decide

theorem get_cons (s : ifstream) (b : Byte) (t : List Byte) (hg : s.good = true)
    (hr : s.rest = b :: t) : s.get = ((b.val : Int), s.adv 1) := by
  simp [ifstream.get, hg, getElem?_pos, hr, ifstream.adv]

theorem get_nil (s : ifstream) (hg : s.good = true) (hr : s.rest = []) :
    s.get = (-1, { s with eofbit := true, failbit := true }) := by
  simp [ifstream.get, hg, getElem?_pos, hr]

theorem get_failed (s : ifstream) (hf : s.failbit = true) : s.get = (-1, s) := by
  cases s with
  | mk d p e f =>
    simp only at hf
    subst hf
    simp [ifstream.get, ifstream.good]

/-! ## Reading a header -/

theorem size_val (b0 b1 b2 b3 : Byte) :
    size_add (size_add (size_add (size_add 0 (shl_int b0.val 24)) (shl_int b1.val 16))
      (shl_int b2.val 8)) (b3.val : Int)
      = sext32 (be32 b0 b1 b2 b3) := by
  have h0 := b0.isLt
  have h1 := b1.isLt
  have h2 := b2.isLt
  have h3 := b3.isLt
  simp only [size_add, shl_int, to_size_t, be32, sext32]
  norm_num
  split_ifs <;> omega

theorem read_size_four (s : ifstream) (b0 b1 b2 b3 : Byte) (t : List Byte)
    (hg : s.good = true) (hr : s.rest = b0 :: b1 :: b2 :: b3 :: t) :
    read_size s = (sext32 (be32 b0 b1 b2 b3), s.adv 4) := by
  have e0 := get_cons s b0 _ hg hr
  have e1 : (s.adv 1).get = ((b1.val : Int), s.adv 2) :=
    get_cons (s.adv 1) b1 (b2 :: b3 :: t) hg (by rw [rest_adv, hr]; rfl)
  have e2 : (s.adv 2).get = ((b2.val : Int), s.adv 3) :=
    get_cons (s.adv 2) b2 (b3 :: t) hg (by rw [rest_adv, hr]; rfl)
  have e3 : (s.adv 3).get = ((b3.val : Int), s.adv 4) :=
    get_cons (s.adv 3) b3 t hg (by rw [rest_adv, hr]; rfl)
  simp only [read_size, e0, e1, e2, e3, to_uchar_val, size_val]

theorem read_atom_type_four (s : ifstream) (b0 b1 b2 b3 : Byte) (t : List Byte)
    (hg : s.good = true) (hr : s.rest = b0 :: b1 :: b2 :: b3 :: t) :
    read_atom_type s = ([b0, b1, b2, b3], s.adv 4) := by
  have e0 := get_cons s b0 _ hg hr
  have e1 : (s.adv 1).get = ((b1.val : Int), s.adv 2) :=
    get_cons (s.adv 1) b1 (b2 :: b3 :: t) hg (by rw [rest_adv, hr]; rfl)
  have e2 : (s.adv 2).get = ((b2.val : Int), s.adv 3) :=
    get_cons (s.adv 2) b2 (b3 :: t) hg (by rw [rest_adv, hr]; rfl)
  have e3 : (s.adv 3).get = ((b3.val : Int), s.adv 4) :=
    get_cons (s.adv 3) b3 t hg (by rw [rest_adv, hr]; rfl)
  simp only [read_atom_type, read_atom_type_loop, e0, e1, e2, e3, to_char_val,
    List.nil_append, List.cons_append]

/-! ## Copying an atom -/

theorem copy_n_failed (s : ifstream) (out : List Byte) (n : Nat) (hf : s.failbit = true) :
    copy_n s out n = (s, out ++ List.replicate n 255) := by
  induction n generalizing out with
  | zero => simp [copy_n]
  | succ n ih =>
    simp only [copy_n, get_failed s hf, ih, to_char_eof, List.replicate_succ,
      List.append_assoc, List.singleton_append]

theorem copy_n_le (s : ifstream) (out : List Byte) (n : Nat) (hg : s.good = true)
    (hn : n ≤ s.rest.length) : copy_n s out n = (s.adv n, out ++ s.rest.take n) := by
  induction n generalizing s out with
  | zero => simp [copy_n, adv_zero]
  | succ n ih =>
    cases hr : s.rest with
    | nil => simp [hr] at hn
    | cons b t =>
      have ht : (s.adv 1).rest = t := by rw [rest_adv, hr]; rfl
      have hn1 : n ≤ (s.adv 1).rest.length := by
        rw [ht]
        simp only [hr, List.length_cons] at hn
        omega
      simp only [copy_n, get_cons s b t hg hr, ih (s.adv 1) _ hg hn1, to_char_val, ht,
        adv_adv, List.take_succ_cons, List.append_assoc, List.singleton_append,
        Nat.add_comm 1 n]

theorem copy_n_gt (s : ifstream) (out : List Byte) (n : Nat) (hg : s.good = true)
    (hn : s.rest.length < n) :
    copy_n s out n
      = ({ s.adv s.rest.length with eofbit := true, failbit := true },
         out ++ s.rest ++ List.replicate (n - s.rest.length) 255) := by
  induction n generalizing s out with
  | zero => simp at hn
  | succ n ih =>
    cases hr : s.rest with
    | nil =>
      simp only [copy_n, get_nil s hg hr, to_char_eof, List.length_nil, adv_zero,
        List.append_nil, Nat.sub_zero]
      rw [copy_n_failed _ _ _ rfl]
      simp [List.replicate_succ]
    | cons b t =>
      have ht : (s.adv 1).rest = t := by rw [rest_adv, hr]; rfl
      have hn1 : (s.adv 1).rest.length < n := by
        rw [ht]
        simp only [hr, List.length_cons] at hn
        omega
      simp only [copy_n, get_cons s b t hg hr, ih (s.adv 1) _ hg hn1, to_char_val, ht,
        adv_adv, List.length_cons, List.append_assoc, List.singleton_append,
        Nat.add_comm 1 t.length, Nat.add_sub_add_right]

theorem copy_n_length (s : ifstream) (out : List Byte) (n : Nat) :
    (copy_n s out n).2.length = out.length + n := by
  induction n generalizing s out with
  | zero => simp [copy_n]
  | succ n ih =>
    simp only [copy_n, ih, List.length_append, List.length_singleton]
    omega

/-! ## Seeking -/

theorem seekg_cur_fwd (s : ifstream) (n : Nat) (hg : s.good = true) :
    s.seekg_cur (n : Int) = s.adv n := by
  obtain ⟨he, hf⟩ := (good_iff s).1 hg
  cases s with
  | mk d p e f =>
    simp only at he hf
    subst he hf
    have h : (0 : Int) ≤ (p : Int) + (n : Int) := by omega
    simp only [ifstream.seekg_cur, ifstream.adv, h, if_true]
    simp
    omega

theorem seekg_cur_back (s : ifstream) (n : Nat) (hg : s.good = true) :
    (s.adv n).seekg_cur (-(n : Int)) = s := by
  obtain ⟨he, hf⟩ := (good_iff s).1 hg
  cases s with
  | mk d p e f =>
    simp only at he hf
    subst he hf
    have h : (0 : Int) ≤ ((p + n : Nat) : Int) + -(n : Int) := by omega
    simp only [ifstream.seekg_cur, ifstream.adv, h, if_true]
    simp

theorem seekg_cur_failed (s : ifstream) (off : Int) (hf : s.failbit = true) :
    s.seekg_cur off = { s with eofbit := false } := by
  simp [ifstream.seekg_cur, hf]

/-! ## Repeated reads -/

theorem gets_failed (k : Nat) (s : ifstream) (hf : s.failbit = true) : gets k s = s := by
  induction k with
  | zero => rfl
  | succ k ih => simp only [gets, get_failed s hf, ih]

theorem gets_le (k : Nat) (s : ifstream) (hg : s.good = true) (hk : k ≤ s.rest.length) :
    gets k s = s.adv k := by
  induction k generalizing s with
  | zero => simp [gets, adv_zero]
  | succ k ih =>
    cases hr : s.rest with
    | nil => simp [hr] at hk
    | cons b t =>
      have ht : (s.adv 1).rest = t := by rw [rest_adv, hr]; rfl
      have hk1 : k ≤ (s.adv 1).rest.length := by
        rw [ht]
        simp only [hr, List.length_cons] at hk
        omega
      simp only [gets, get_cons s b t hg hr, ih (s.adv 1) hg hk1, adv_adv, Nat.add_comm 1 k]

theorem gets_gt (k : Nat) (s : ifstream) (hg : s.good = true) (hk : s.rest.length < k) :
    gets k s = { s.adv s.rest.length with eofbit := true, failbit := true } := by
  induction k generalizing s with
  | zero => simp at hk
  | succ k ih =>
    cases hr : s.rest with
    | nil =>
      simp only [gets, get_nil s hg hr, List.length_nil, adv_zero]
      rw [gets_failed _ _ rfl]
    | cons b t =>
      have ht : (s.adv 1).rest = t := by rw [rest_adv, hr]; rfl
      have hk1 : (s.adv 1).rest.length < k := by
        rw [ht]
        simp only [hr, List.length_cons] at hk
        omega
      simp only [gets, get_cons s b t hg hr, ih (s.adv 1) hg hk1, ht, adv_adv,
        List.length_cons, Nat.add_comm 1 t.length]

theorem get_eof_of_short (k : Nat) (s : ifstream) (hg : s.good = true)
    (hk : s.rest.length ≤ k) : (gets k s).get.1 = -1 := by
  rcases Nat.lt_or_ge s.rest.length k with h | h
  · rw [gets_gt k s hg h, get_failed _ rfl]
  · have hk2 : k = s.rest.length := Nat.le_antisymm h hk
    rw [gets_le k s hg h]
    have hr : (s.adv k).rest = [] := by
      rw [rest_adv, hk2]
      simp
    rw [get_nil (s.adv k) hg hr]

theorem read_size_snd (s : ifstream) : (read_size s).2 = gets 4 s := by
  simp only [read_size, gets]

theorem read_atom_type_snd (s : ifstream) : (read_atom_type s).2 = gets 4 s := by
  simp only [read_atom_type, read_atom_type_loop, gets]

theorem read_atom_type_fst (s : ifstream) :
    (read_atom_type s).1
      = [to_char s.get.1, to_char (gets 1 s).get.1, to_char (gets 2 s).get.1,
         to_char (gets 3 s).get.1] := by
  simp only [read_atom_type, read_atom_type_loop, gets, List.nil_append, List.cons_append]

theorem gets_add (j k : Nat) (s : ifstream) : gets k (gets j s) = gets (j + k) s := by
  induction j generalizing s with
  | zero => simp [gets]
  | succ j ih => simp only [gets, ih, Nat.succ_add]

/-! ## The signature probe -/

theorem exists_four (l : List Byte) (h : 4 ≤ l.length) :
    ∃ b0 b1 b2 b3 t, l = b0 :: b1 :: b2 :: b3 :: t := by
  match l, h with
  | b0 :: b1 :: b2 :: b3 :: t, _ => exact ⟨b0, b1, b2, b3, t, rfl⟩

theorem rest_length (s : ifstream) : s.rest.length = s.data.length - s.pos := by
  simp [ifstream.rest]

theorem is_mov_file_eight (s : ifstream) (b0 b1 b2 b3 : Byte) (t : List Byte)
    (hg : s.good = true) (hr : (s.adv 4).rest = b0 :: b1 :: b2 :: b3 :: t) :
    is_mov_file s = (decide ([b0, b1, b2, b3] = FTYP), s) := by
  obtain ⟨he, hf⟩ := (good_iff s).1 hg
  have h4 : s.seekg_cur 4 = s.adv 4 := seekg_cur_fwd s 4 hg
  have h8 : ((s.adv 4).adv 4).seekg_cur (-8) = s := by
    rw [adv_adv]
    exact seekg_cur_back s 8 hg
  have hfe : ((s.adv 4).fail || (s.adv 4).eof) = false := by
    simp [ifstream.fail, ifstream.eof, ifstream.adv, he, hf]
  have hfe2 : (((s.adv 4).adv 4).fail || ((s.adv 4).adv 4).eof) = false := by
    simp [ifstream.fail, ifstream.eof, ifstream.adv, he, hf]
  simp only [is_mov_file, h4, hfe, read_atom_type_four (s.adv 4) b0 b1 b2 b3 t hg hr, hfe2, h8]
  by_cases h : [b0, b1, b2, b3] = FTYP <;> simp [h]

theorem is_mov_file_short (s : ifstream) (hg : s.good = true) (hr : s.rest.length < 8) :
    is_mov_file s
      = (false, { data := s.data, pos := s.pos + max 4 s.rest.length, eofbit := false,
                  failbit := true }) := by
  obtain ⟨he, hf⟩ := (good_iff s).1 hg
  have h4 : s.seekg_cur 4 = s.adv 4 := seekg_cur_fwd s 4 hg
  have hfe : ((s.adv 4).fail || (s.adv 4).eof) = false := by
    simp [ifstream.fail, ifstream.eof, ifstream.adv, he, hf]
  have hlen : (s.adv 4).rest.length < 4 := by
    rw [rest_adv, List.length_drop]
    omega
  have h2 : (read_atom_type (s.adv 4)).2
      = { (s.adv 4).adv (s.adv 4).rest.length with eofbit := true, failbit := true } := by
    rw [read_atom_type_snd, gets_gt 4 (s.adv 4) hg hlen]
  have hl : (s.adv 4).rest.length = s.rest.length - 4 := by
    rw [rest_adv, List.length_drop]
  have hfe2 : ((read_atom_type (s.adv 4)).2.fail || (read_atom_type (s.adv 4)).2.eof) = true := by
    rw [h2]
    rfl
  simp only [is_mov_file, h4, hfe, hfe2]
  rw [h2, seekg_cur_failed _ _ rfl, hl]
  have hp : s.pos + 4 + (s.rest.length - 4) = s.pos + max 4 s.rest.length := by omega
  simp only [ifstream.adv, hp]
  simp

/-! ## One round of the carve loop -/

theorem sext32_lt (v : Nat) (h : v < 2 ^ 31) : sext32 v = v := by
  simp only [sext32, h, if_true]

theorem le_sext32 (v : Nat) : v ≤ sext32 v := by
  simp only [sext32]
  split_ifs <;> omega

theorem carve_loop_succ (fuel : Nat) (s : ifstream) (out : List Byte) :
    carve_loop (fuel + 1) s out
      = if s.eof then some (s, out)
        else if (read_size s).1 < 8 then some ((read_atom_type (read_size s).2).2, out)
        else if !is_valid_atom_type (read_atom_type (read_size s).2).1 then
          some ((read_atom_type (read_size s).2).2, out)
        else
          carve_loop fuel
            (copy_n ((read_atom_type (read_size s).2).2.seekg_cur (-8)) out (read_size s).1).1
            (copy_n ((read_atom_type (read_size s).2).2.seekg_cur (-8)) out (read_size s).1).2 :=
  rfl

theorem eof_of_good (s : ifstream) (hg : s.good = true) : s.eof = false :=
  ((good_iff s).1 hg).1

theorem not_valid_of_last (a b c : Byte) : is_valid_atom_type [a, b, c, 255] = false := by
  simp [is_valid_atom_type, FTYP, MOOV, MDAT, FREE, SKIP, WIDE, PNOT]

theorem is_valid_atom_type_iff (ty : List Byte) :
    is_valid_atom_type ty = true ↔ ty ∈ [FTYP, MOOV, MDAT, FREE, SKIP, WIDE, PNOT] := by
  simp [is_valid_atom_type, or_assoc]

theorem header_read (s : ifstream) (b0 b1 b2 b3 c0 c1 c2 c3 : Byte) (t : List Byte)
    (hg : s.good = true) (hr : s.rest = b0 :: b1 :: b2 :: b3 :: c0 :: c1 :: c2 :: c3 :: t) :
    read_size s = (sext32 (be32 b0 b1 b2 b3), s.adv 4)
      ∧ read_atom_type (s.adv 4) = ([c0, c1, c2, c3], s.adv 8) := by
  refine ⟨read_size_four s b0 b1 b2 b3 _ hg hr, ?_⟩
  have h := read_atom_type_four (s.adv 4) c0 c1 c2 c3 t hg (by rw [rest_adv, hr]; rfl)
  rw [h, adv_adv]

theorem carve_stop_size (fuel : Nat) (s : ifstream) (out : List Byte)
    (b0 b1 b2 b3 c0 c1 c2 c3 : Byte) (t : List Byte) (hg : s.good = true)
    (hr : s.rest = b0 :: b1 :: b2 :: b3 :: c0 :: c1 :: c2 :: c3 :: t)
    (h8 : be32 b0 b1 b2 b3 < 8) : carve_loop (fuel + 1) s out = some (s.adv 8, out) := by
  obtain ⟨h1, h2⟩ := header_read s b0 b1 b2 b3 c0 c1 c2 c3 t hg hr
  have hs : sext32 (be32 b0 b1 b2 b3) < 8 := by
    rw [sext32_lt _ (by omega)]
    exact h8
  rw [carve_loop_succ, eof_of_good s hg, h1]
  simp only [h2, hs, if_true, Bool.false_eq_true, if_false]

theorem carve_stop_type (fuel : Nat) (s : ifstream) (out : List Byte)
    (b0 b1 b2 b3 c0 c1 c2 c3 : Byte) (t : List Byte) (hg : s.good = true)
    (hr : s.rest = b0 :: b1 :: b2 :: b3 :: c0 :: c1 :: c2 :: c3 :: t)
    (hv : is_valid_atom_type [c0, c1, c2, c3] = false) :
    carve_loop (fuel + 1) s out = some (s.adv 8, out) := by
  obtain ⟨h1, h2⟩ := header_read s b0 b1 b2 b3 c0 c1 c2 c3 t hg hr
  rw [carve_loop_succ, eof_of_good s hg, h1]
  simp only [h2, hv, Bool.not_false, if_true, Bool.false_eq_true, if_false, ite_self]

theorem carve_copy (fuel : Nat) (s : ifstream) (out : List Byte)
    (b0 b1 b2 b3 c0 c1 c2 c3 : Byte) (t : List Byte) (hg : s.good = true)
    (hr : s.rest = b0 :: b1 :: b2 :: b3 :: c0 :: c1 :: c2 :: c3 :: t)
    (h8 : 8 ≤ be32 b0 b1 b2 b3) (hv : is_valid_atom_type [c0, c1, c2, c3] = true) :
    carve_loop (fuel + 1) s out
      = carve_loop fuel (copy_n s out (sext32 (be32 b0 b1 b2 b3))).1
          (copy_n s out (sext32 (be32 b0 b1 b2 b3))).2 := by
  obtain ⟨h1, h2⟩ := header_read s b0 b1 b2 b3 c0 c1 c2 c3 t hg hr
  have hlt : ¬ (sext32 (be32 b0 b1 b2 b3) < 8) := by
    have := le_sext32 (be32 b0 b1 b2 b3)
    omega
  have hb : (s.adv 8).seekg_cur (-8) = s := seekg_cur_back s 8 hg
  rw [carve_loop_succ, eof_of_good s hg, h1]
  simp only [h2, hv, hlt, hb, Bool.not_true, if_false, Bool.false_eq_true]

theorem carve_short (fuel : Nat) (s : ifstream) (out : List Byte) (hg : s.good = true)
    (hr : s.rest.length < 8) :
    carve_loop (fuel + 1) s out
      = some ({ s.adv s.rest.length with eofbit := true, failbit := true }, out) := by
  have e7 : gets 3 (gets 4 s) = gets 7 s := gets_add 4 3 s
  have e8 : gets 4 (gets 4 s) = gets 8 s := gets_add 4 4 s
  have hty : is_valid_atom_type (read_atom_type (read_size s).2).1 = false := by
    rw [read_atom_type_fst, read_size_snd, e7, get_eof_of_short 7 s hg (by omega), to_char_eof]
    exact not_valid_of_last _ _ _
  have hst : (read_atom_type (read_size s).2).2
      = { s.adv s.rest.length with eofbit := true, failbit := true } := by
    rw [read_atom_type_snd, read_size_snd, e8, gets_gt 8 s hg hr]
  rw [carve_loop_succ, eof_of_good s hg, hst, hty]
  simp only [Bool.not_false, if_true, Bool.false_eq_true, if_false, ite_self]

theorem carve_eof (fuel : Nat) (s : ifstream) (out : List Byte) (he : s.eof = true) :
    carve_loop (fuel + 1) s out = some (s, out) := by
  rw [carve_loop_succ, he]
  rfl

/-! ## Carving a sequence of well-formed atoms -/

theorem exists_eight (l : List Byte) (h : 8 ≤ l.length) :
    ∃ b0 b1 b2 b3 c0 c1 c2 c3 t, l = b0 :: b1 :: b2 :: b3 :: c0 :: c1 :: c2 :: c3 :: t := by
  match l, h with
  | b0 :: b1 :: b2 :: b3 :: c0 :: c1 :: c2 :: c3 :: t, _ =>
    exact ⟨b0, b1, b2, b3, c0, c1, c2, c3, t, rfl⟩

theorem atom_ok_iff (a : List Byte) :
    atom_ok a = true ↔ ∃ b0 b1 b2 b3 c0 c1 c2 c3 t,
      a = b0 :: b1 :: b2 :: b3 :: c0 :: c1 :: c2 :: c3 :: t ∧ be32 b0 b1 b2 b3 = a.length
        ∧ is_valid_atom_type [c0, c1, c2, c3] = true := by
  constructor
  · intro h
    unfold atom_ok at h
    split at h
    · rename_i b0 b1 b2 b3 c0 c1 c2 c3 t
      simp only [Bool.and_eq_true, beq_iff_eq] at h
      exact ⟨b0, b1, b2, b3, c0, c1, c2, c3, t, rfl, h.1, h.2⟩
    · exact absurd h (by simp)
  · rintro ⟨b0, b1, b2, b3, c0, c1, c2, c3, t, rfl, h1, h2⟩
    simp only [atom_ok, Bool.and_eq_true, beq_iff_eq]
    exact ⟨h1, h2⟩

theorem stops_of_short (tail : List Byte) (h : tail.length < 8) : stops tail = true := by
  unfold stops
  split
  · simp only [List.length_cons] at h
    omega
  · rfl

theorem carve_stops (fuel : Nat) (s : ifstream) (out : List Byte) (hg : s.good = true)
    (hs : stops s.rest = true) :
    carve_loop (fuel + 1) s out = some (carve_end s, out) := by
  rcases Nat.lt_or_ge s.rest.length 8 with h | h
  · rw [carve_short fuel s out hg h]
    simp only [carve_end, h, if_neg (Nat.not_le.2 h)]
  · obtain ⟨b0, b1, b2, b3, c0, c1, c2, c3, t, hr⟩ := exists_eight s.rest h
    simp only [carve_end, h, if_true]
    rw [hr] at hs
    simp only [stops, Bool.or_eq_true, decide_eq_true_eq, Bool.not_eq_true'] at hs
    rcases hs with hs | hs
    · exact carve_stop_size fuel s out b0 b1 b2 b3 c0 c1 c2 c3 t hg hr hs
    · exact carve_stop_type fuel s out b0 b1 b2 b3 c0 c1 c2 c3 t hg hr hs

theorem carve_atoms (atoms : List (List Byte)) (tail : List Byte) (k : Nat) (s : ifstream)
    (out : List Byte) (hg : s.good = true) (hr : s.rest = atoms.flatten ++ tail)
    (ha : ∀ a ∈ atoms, atom_ok a = true ∧ a.length < 2 ^ 31) (ht : stops tail = true) :
    carve_loop (atoms.length + 1 + k) s out
      = some (carve_end (s.adv atoms.flatten.length), out ++ atoms.flatten) := by
  induction atoms generalizing s out with
  | nil =>
    simp only [List.flatten_nil, List.nil_append] at hr
    simp only [List.length_nil, Nat.zero_add, List.flatten_nil, adv_zero, List.append_nil]
    rw [Nat.add_comm 1 k]
    exact carve_stops k s out hg (by rw [hr]; exact ht)
  | cons a atoms ih =>
    obtain ⟨hok, hlt⟩ := ha a (List.mem_cons_self _ _)
    obtain ⟨b0, b1, b2, b3, c0, c1, c2, c3, t, hat, hlen, hv⟩ := (atom_ok_iff a).1 hok
    have hr2 : s.rest = b0 :: b1 :: b2 :: b3 :: c0 :: c1 :: c2 :: c3 :: (t ++ (atoms.flatten ++ tail)) := by
      rw [hr, List.flatten_cons, hat]
      simp
    have h8 : 8 ≤ be32 b0 b1 b2 b3 := by
      rw [hlen, hat]
      simp
    have hsz : sext32 (be32 b0 b1 b2 b3) = a.length := by
      rw [sext32_lt _ (by rw [hlen]; exact hlt), hlen]
    have hle : a.length ≤ s.rest.length := by
      rw [hr, List.flatten_cons]
      simp only [List.length_append]
      omega
    have htake : s.rest.take a.length = a := by
      rw [hr, List.flatten_cons, List.append_assoc, List.take_left']
      rfl
    have hfuel : (a :: atoms).length + 1 + k = (atoms.length + 1 + k) + 1 := by
      simp only [List.length_cons]
      omega
    rw [hfuel, carve_copy _ s out b0 b1 b2 b3 c0 c1 c2 c3 _ hg hr2 h8 hv, hsz,
      copy_n_le s out a.length hg hle, htake]
    have hrest : (s.adv a.length).rest = atoms.flatten ++ tail := by
      rw [rest_adv, hr, List.flatten_cons, List.append_assoc, List.drop_left']
      rfl
    rw [ih (s.adv a.length) (out ++ a) hg hrest
      (fun x hx => ha x (List.mem_cons_of_mem _ hx))]
    simp only [adv_adv, List.flatten_cons, List.length_append, List.append_assoc]

/-! ## One round of the scan loop -/

theorem is_mov_file_full (s : ifstream) (hg : s.good = true) (h8 : 8 ≤ s.rest.length) :
    is_mov_file s = (decide ((s.rest.drop 4).take 4 = FTYP), s) := by
  have h4 : 4 ≤ (s.adv 4).rest.length := by
    rw [rest_adv, List.length_drop]
    omega
  obtain ⟨b0, b1, b2, b3, t, hr⟩ := exists_four _ h4
  rw [is_mov_file_eight s b0 b1 b2 b3 t hg hr]
  rw [rest_adv] at hr
  rw [hr]
  rfl

theorem resync_good (bs : Nat) (s : ifstream) (hg : s.good = true) :
    resync bs s = { s with pos := s.pos / bs * bs + bs } := by
  obtain ⟨he, hf⟩ := (good_iff s).1 hg
  cases s with
  | mk d p e f =>
    simp only at he hf
    subst he hf
    have h1 : (0 : Int) ≤ ((p / bs * bs : Nat) : Int) := Int.ofNat_nonneg _
    have h2 : (0 : Int) ≤ ((p / bs * bs : Nat) : Int) + (bs : Int) := by omega
    simp only [resync, ifstream.tellg, ifstream.good, pos_to_size_t, ifstream.seekg,
      ifstream.seekg_cur, Bool.not_false, Bool.and_self, if_true, Int.ofNat_nonneg,
      Int.toNat_ofNat, Bool.false_eq_true, if_false, h1, h2]
    simp only [ifstream.mk.injEq, true_and, and_true]
    omega

theorem resync_failed (bs : Nat) (s : ifstream) (hf : s.failbit = true) :
    resync bs s = { s with eofbit := false } := by
  cases s with
  | mk d p e f =>
    simp only at hf
    subst hf
    simp [resync, ifstream.tellg, ifstream.good, ifstream.seekg, ifstream.seekg_cur]

theorem main_loop_succ (bs : Nat) (base : String) (fuel : Nat) (st : MainState) :
    main_loop bs base (fuel + 1) st
      = if st.infile.fail || st.infile.eof then some st
        else
          match main_body bs base fuel st with
          | none => none
          | some st => main_loop bs base fuel st :=
  rfl

theorem main_loop_done (bs : Nat) (base : String) (fuel : Nat) (st : MainState)
    (hf : st.infile.failbit = true) : main_loop bs base (fuel + 1) st = some st := by
  rw [main_loop_succ]
  simp [ifstream.fail, hf]

theorem guard_of_good (s : ifstream) (hg : s.good = true) : (s.fail || s.eof) = false := by
  obtain ⟨he, hf⟩ := (good_iff s).1 hg
  simp [ifstream.fail, ifstream.eof, he, hf]

theorem main_body_miss (bs : Nat) (base : String) (fuel : Nat) (st : MainState)
    (hg : st.infile.good = true) (h8 : 8 ≤ st.infile.rest.length)
    (hne : (st.infile.rest.drop 4).take 4 ≠ FTYP) :
    main_body bs base fuel st
      = some { st with infile := st.infile.adv bs, probes := st.probes ++ [st.infile.pos] } := by
  simp only [main_body, is_mov_file_full st.infile hg h8, hne, decide_False,
    Bool.false_eq_true, if_false, seekg_cur_fwd st.infile bs hg]

theorem main_body_short (bs : Nat) (base : String) (fuel : Nat) (st : MainState)
    (hg : st.infile.good = true) (h8 : st.infile.rest.length < 8) :
    main_body bs base fuel st
      = some { st with
          infile := { data := st.infile.data,
                      pos := st.infile.pos + max 4 st.infile.rest.length,
                      eofbit := false, failbit := true },
          probes := st.probes ++ [st.infile.pos] } := by
  simp only [main_body, is_mov_file_short st.infile hg h8, Bool.false_eq_true, if_false]
  rw [seekg_cur_failed _ _ rfl]

theorem main_body_hit (bs : Nat) (base : String) (fuel : Nat) (st : MainState)
    (s2 : ifstream) (out : List Byte)
    (hg : st.infile.good = true) (h8 : 8 ≤ st.infile.rest.length)
    (hft : (st.infile.rest.drop 4).take 4 = FTYP)
    (hc : carve_loop fuel st.infile [] = some (s2, out)) :
    main_body bs base fuel st
      = some { infile := resync bs s2, mov_index := (st.mov_index + 1) % 2 ^ 32,
               files := st.files
                 ++ [(base ++ toString ((st.mov_index + 1) % 2 ^ 32) ++ ".mov", out)],
               probes := st.probes ++ [st.infile.pos] } := by
  simp only [main_body, is_mov_file_full st.infile hg h8, hft, decide_True, if_true, hc]

/-! ## Termination of the carve loop -/

theorem carve_total (n : Nat) (s : ifstream) (out : List Byte) (hg : s.good = true)
    (hn : s.rest.length ≤ n) :
    ∃ s2 out2, (∀ k, carve_loop (n + 2 + k) s out = some (s2, out2)) ∧ s2.data = s.data
      ∧ (s2.failbit = true ∨ (s2.good = true ∧ s.pos + 8 ≤ s2.pos)) := by
  induction n generalizing s out with
  | zero =>
    have h0 : s.rest.length < 8 := by omega
    refine ⟨{ s.adv s.rest.length with eofbit := true, failbit := true }, out, fun k => ?_,
      rfl, Or.inl rfl⟩
    rw [show 0 + 2 + k = (1 + k) + 1 by omega]
    exact carve_short _ s out hg h0
  | succ n ih =>
    rcases Nat.lt_or_ge s.rest.length 8 with h | h
    · refine ⟨{ s.adv s.rest.length with eofbit := true, failbit := true }, out,
        fun k => ?_, rfl, Or.inl rfl⟩
      rw [show n + 1 + 2 + k = (n + 2 + k) + 1 by omega]
      exact carve_short _ s out hg h
    · obtain ⟨b0, b1, b2, b3, c0, c1, c2, c3, t, hr⟩ := exists_eight s.rest h
      rcases Nat.lt_or_ge (be32 b0 b1 b2 b3) 8 with h8 | h8
      · refine ⟨s.adv 8, out, fun k => ?_, rfl, Or.inr ⟨hg, Nat.le_refl _⟩⟩
        rw [show n + 1 + 2 + k = (n + 2 + k) + 1 by omega]
        exact carve_stop_size _ s out b0 b1 b2 b3 c0 c1 c2 c3 t hg hr h8
      · cases hv : is_valid_atom_type [c0, c1, c2, c3] with
        | false =>
          refine ⟨s.adv 8, out, fun k => ?_, rfl, Or.inr ⟨hg, Nat.le_refl _⟩⟩
          rw [show n + 1 + 2 + k = (n + 2 + k) + 1 by omega]
          exact carve_stop_type _ s out b0 b1 b2 b3 c0 c1 c2 c3 t hg hr hv
        | true =>
          have hsz : 8 ≤ sext32 (be32 b0 b1 b2 b3) :=
            Nat.le_trans h8 (le_sext32 _)
          have hstep : ∀ k, carve_loop (n + 1 + 2 + k) s out
              = carve_loop (n + 2 + k) (copy_n s out (sext32 (be32 b0 b1 b2 b3))).1
                  (copy_n s out (sext32 (be32 b0 b1 b2 b3))).2 := by
            intro k
            rw [show n + 1 + 2 + k = (n + 2 + k) + 1 by omega]
            exact carve_copy _ s out b0 b1 b2 b3 c0 c1 c2 c3 t hg hr h8 hv
          rcases Nat.lt_or_ge s.rest.length (sext32 (be32 b0 b1 b2 b3)) with hgt | hle
          · refine ⟨{ s.adv s.rest.length with eofbit := true, failbit := true },
              out ++ s.rest ++ List.replicate (sext32 (be32 b0 b1 b2 b3) - s.rest.length) 255,
              fun k => ?_, ?_, Or.inl ?_⟩
            · rw [hstep k, copy_n_gt s out _ hg hgt,
                show n + 2 + k = (n + 1 + k) + 1 by omega]
              exact carve_eof _ _ _ rfl
            · rfl
            · rfl
          · have hlen : (s.adv (sext32 (be32 b0 b1 b2 b3))).rest.length ≤ n := by
              rw [rest_adv, List.length_drop]
              omega
            obtain ⟨s2, out2, hrun, hdata, hpos⟩ :=
              ih (s.adv (sext32 (be32 b0 b1 b2 b3)))
                (out ++ s.rest.take (sext32 (be32 b0 b1 b2 b3))) hg hlen
            refine ⟨s2, out2, fun k => ?_, hdata, ?_⟩
            · rw [hstep k, copy_n_le s out _ hg hle]
              exact hrun k
            · rcases hpos with hf | ⟨hg2, hp⟩
              · exact Or.inl hf
              · refine Or.inr ⟨hg2, ?_⟩
                simp only [ifstream.adv] at hp
                omega

theorem carve_mono (fuel : Nat) (s : ifstream) (out : List Byte) (r : ifstream × List Byte)
    (h : carve_loop fuel s out = some r) : carve_loop (fuel + 1) s out = some r := by
  induction fuel generalizing s out with
  | zero =>
    have h0 : carve_loop 0 s out = none := rfl
    rw [h0] at h
    cases h
  | succ f ih =>
    rw [carve_loop_succ] at h ⊢
    split_ifs at h ⊢
    · exact h
    · exact h
    · exact h
    · exact ih _ _ h

theorem carve_mono_add (fuel k : Nat) (s : ifstream) (out : List Byte)
    (r : ifstream × List Byte) (h : carve_loop fuel s out = some r) :
    carve_loop (fuel + k) s out = some r := by
  induction k with
  | zero => exact h
  | succ k ih => exact carve_mono _ s out r ih

/-! ## The scan loop: what a run keeps, and termination -/

theorem main_body_keeps (bs : Nat) (base : String) (fuel : Nat) (st st1 : MainState)
    (h : main_body bs base fuel st = some st1) :
    st.files <+: st1.files ∧ st1.probes = st.probes ++ [st.infile.pos] := by
  simp only [main_body] at h
  split_ifs at h with hfound
  · split at h
    · cases h
    · simp only [Option.some.injEq] at h
      subst h
      exact ⟨List.prefix_append _ _, rfl⟩
  · simp only [Option.some.injEq] at h
    subst h
    exact ⟨List.prefix_refl _, rfl⟩

theorem main_loop_keeps (bs : Nat) (base : String) (fuel : Nat) (st st1 : MainState)
    (h : main_loop bs base fuel st = some st1) :
    st.files <+: st1.files ∧ st.probes <+: st1.probes := by
  induction fuel generalizing st with
  | zero =>
    have h0 : main_loop bs base 0 st = none := rfl
    rw [h0] at h
    cases h
  | succ f ih =>
    rw [main_loop_succ] at h
    split_ifs at h with hguard
    · simp only [Option.some.injEq] at h
      subst h
      exact ⟨List.prefix_refl _, List.prefix_refl _⟩
    · cases hb : main_body bs base f st with
      | none =>
        rw [hb] at h
        cases h
      | some st2 =>
        rw [hb] at h
        obtain ⟨hf, hp⟩ := main_body_keeps bs base f st st2 hb
        obtain ⟨hf2, hp2⟩ := ih st2 h
        refine ⟨hf.trans hf2, List.IsPrefix.trans ?_ hp2⟩
        rw [hp]
        exact List.prefix_append _ _

theorem div_mul_add_gt (p bs : Nat) (hbs : 1 ≤ bs) : p < p / bs * bs + bs := by
  have h1 := Nat.div_add_mod p bs
  have h2 := Nat.mod_lt p (show bs > 0 by omega)
  have h3 : bs * (p / bs) = p / bs * bs := Nat.mul_comm _ _
  omega

theorem main_total (bs : Nat) (base : String) (hbs : 1 ≤ bs) (n : Nat) (st : MainState)
    (hn : st.infile.good = true → st.infile.rest.length ≤ n) :
    ∃ st1, ∀ k, main_loop bs base (n + 3 + k) st = some st1 := by
  induction n generalizing st with
  | zero =>
    cases hg : st.infile.good with
    | false =>
      refine ⟨st, fun k => ?_⟩
      rw [show 0 + 3 + k = (2 + k) + 1 by omega, main_loop_succ]
      have hguard : (st.infile.fail || st.infile.eof) = true := by
        cases hs : st.infile with
        | mk d p e f =>
          rw [hs] at hg
          cases e <;> cases f <;> simp_all [ifstream.good, ifstream.fail, ifstream.eof]
      rw [hguard]
      rfl
    | true =>
      have h0 : st.infile.rest.length < 8 := by
        have := hn hg
        omega
      refine ⟨{ st with
          infile := { data := st.infile.data,
                      pos := st.infile.pos + max 4 st.infile.rest.length,
                      eofbit := false, failbit := true },
          probes := st.probes ++ [st.infile.pos] }, fun k => ?_⟩
      rw [show 0 + 3 + k = ((1 + k) + 1) + 1 by omega, main_loop_succ, guard_of_good _ hg]
      simp only [Bool.false_eq_true, if_false, main_body_short bs base _ st hg h0]
      exact main_loop_done bs base _ _ rfl
  | succ n ih =>
    cases hg : st.infile.good with
    | false =>
      refine ⟨st, fun k => ?_⟩
      rw [show n + 1 + 3 + k = (n + 3 + k) + 1 by omega, main_loop_succ]
      have hguard : (st.infile.fail || st.infile.eof) = true := by
        cases hs : st.infile with
        | mk d p e f =>
          rw [hs] at hg
          cases e <;> cases f <;> simp_all [ifstream.good, ifstream.fail, ifstream.eof]
      rw [hguard]
      rfl
    | true =>
      have hlen := hn hg
      rcases Nat.lt_or_ge st.infile.rest.length 8 with h8 | h8
      · refine ⟨{ st with
            infile := { data := st.infile.data,
                        pos := st.infile.pos + max 4 st.infile.rest.length,
                        eofbit := false, failbit := true },
            probes := st.probes ++ [st.infile.pos] }, fun k => ?_⟩
        rw [show n + 1 + 3 + k = ((n + 2 + k) + 1) + 1 by omega, main_loop_succ,
          guard_of_good _ hg]
        simp only [Bool.false_eq_true, if_false, main_body_short bs base _ st hg h8]
        exact main_loop_done bs base _ _ rfl
      · by_cases hft : (st.infile.rest.drop 4).take 4 = FTYP
        · obtain ⟨s2, out, hrun, hdata, hpos⟩ :=
            carve_total st.infile.rest.length st.infile [] hg (Nat.le_refl _)
          have hc : ∀ k, carve_loop (n + 3 + k) st.infile [] = some (s2, out) := by
            intro k
            have := hrun (n + 1 - st.infile.rest.length + k)
            rw [show st.infile.rest.length + 2 + (n + 1 - st.infile.rest.length + k)
              = n + 3 + k by omega] at this
            exact this
          have hnext : (resync bs s2).good = true → (resync bs s2).rest.length ≤ n := by
            intro hg3
            rcases hpos with hf | ⟨hg2, hp⟩
            · rw [resync_failed bs s2 hf] at hg3
              simp [ifstream.good, hf] at hg3
            · rw [resync_good bs s2 hg2, rest_length]
              rw [rest_length] at hlen h8
              simp only [hdata]
              have := div_mul_add_gt s2.pos bs hbs
              omega
          obtain ⟨st1, hst1⟩ := ih
            { infile := resync bs s2, mov_index := (st.mov_index + 1) % 2 ^ 32,
              files := st.files
                ++ [(base ++ toString ((st.mov_index + 1) % 2 ^ 32) ++ ".mov", out)],
              probes := st.probes ++ [st.infile.pos] } hnext
          refine ⟨st1, fun k => ?_⟩
          rw [show n + 1 + 3 + k = (n + 3 + k) + 1 by omega, main_loop_succ,
            guard_of_good _ hg]
          simp only [Bool.false_eq_true, if_false,
            main_body_hit bs base _ st s2 out hg h8 hft (hc k)]
          exact hst1 k
        · have hnext : (st.infile.adv bs).good = true → (st.infile.adv bs).rest.length ≤ n := by
            intro _
            rw [rest_adv, List.length_drop]
            omega
          obtain ⟨st1, hst1⟩ := ih
            { st with infile := st.infile.adv bs, probes := st.probes ++ [st.infile.pos] } hnext
          refine ⟨st1, fun k => ?_⟩
          rw [show n + 1 + 3 + k = (n + 3 + k) + 1 by omega, main_loop_succ,
            guard_of_good _ hg]
          simp only [Bool.false_eq_true, if_false, main_body_miss bs base _ st hg h8 hft]
          exact hst1 k

/-! ## Skipping blocks without a signature -/

theorem drop_rest (s : ifstream) (n : Nat) : s.rest.drop n = s.data.drop (s.pos + n) := by
  simp [ifstream.rest, List.drop_drop, Nat.add_comm]

theorem length_of_take_four (l : List Byte) (h : l.take 4 = FTYP) : 4 ≤ l.length := by
  have h1 : (l.take 4).length = 4 := by rw [h]; rfl
  rw [List.length_take] at h1
  omega

theorem scan_skip (bs : Nat) (base : String) (data : List Byte) (m : Nat) (fuel : Nat)
    (st : MainState) (p : Nat) (hs : st.infile = stream_at data p)
    (hm : ∀ j < m, p + j * bs + 8 ≤ data.length ∧ (data.drop (p + j * bs + 4)).take 4 ≠ FTYP) :
    main_loop bs base (fuel + m) st
      = main_loop bs base fuel
          { st with infile := stream_at data (p + m * bs),
                    probes := st.probes ++ (List.range m).map (fun j => p + j * bs) } := by
  induction m generalizing st p with
  | zero =>
    simp only [Nat.add_zero, Nat.zero_mul, List.range_zero, List.map_nil, List.append_nil]
    rw [← hs]
  | succ m ih =>
    have hg : st.infile.good = true := by rw [hs]; rfl
    obtain ⟨h8, hne⟩ := hm 0 (Nat.succ_pos m)
    simp only [Nat.zero_mul, Nat.add_zero] at h8 hne
    have h8r : 8 ≤ st.infile.rest.length := by
      rw [rest_length, hs]
      simp only [stream_at]
      omega
    have hner : (st.infile.rest.drop 4).take 4 ≠ FTYP := by
      rw [drop_rest, hs]
      exact hne
    rw [show fuel + (m + 1) = (fuel + m) + 1 by omega, main_loop_succ, guard_of_good _ hg]
    simp only [Bool.false_eq_true, if_false, main_body_miss bs base _ st hg h8r hner]
    have hs1 : st.infile.adv bs = stream_at data (p + bs) := by
      rw [hs]
      rfl
    rw [ih { st with infile := st.infile.adv bs, probes := st.probes ++ [st.infile.pos] }
      (p + bs) hs1 ?_]
    · have hp : st.infile.pos = p := by rw [hs]; rfl
      have e1 : p + bs + m * bs = p + (m + 1) * bs := by rw [Nat.succ_mul]; omega
      have e2 : List.map (fun j => p + bs + j * bs) (List.range m)
          = List.map (fun j => p + j * bs) (List.map Nat.succ (List.range m)) := by
        rw [List.map_map]
        apply List.map_congr_left
        intro j _
        simp only [Function.comp, Nat.succ_mul]
        omega
      simp only [hp, e1, e2, List.range_succ_eq_map, List.map_cons, Nat.zero_mul, Nat.add_zero,
        List.append_assoc, List.singleton_append]
    · intro j hj
      have := hm (j + 1) (by omega)
      rw [Nat.succ_mul] at this
      rw [show p + bs + j * bs = p + (j * bs + bs) by omega]
      exact this

theorem scan_no_match (bs : Nat) (base : String) (hbs : 1 ≤ bs) (n : Nat) (st : MainState)
    (hg : st.infile.good = true) (hn : st.infile.rest.length ≤ n)
    (hno : ∀ i, (st.infile.data.drop i).take 4 ≠ FTYP) :
    ∃ st1, (∀ k, main_loop bs base (n + 2 + k) st = some st1) ∧ st1.files = st.files
      ∧ st1.mov_index = st.mov_index ∧ st1.infile.failbit = true := by
  induction n generalizing st with
  | zero =>
    have h0 : st.infile.rest.length < 8 := by omega
    refine ⟨{ st with
        infile := { data := st.infile.data,
                    pos := st.infile.pos + max 4 st.infile.rest.length,
                    eofbit := false, failbit := true },
        probes := st.probes ++ [st.infile.pos] }, fun k => ?_, rfl, rfl, rfl⟩
    rw [show 0 + 2 + k = (k + 1) + 1 by omega, main_loop_succ, guard_of_good _ hg]
    simp only [Bool.false_eq_true, if_false, main_body_short bs base _ st hg h0]
    exact main_loop_done bs base _ _ rfl
  | succ n ih =>
    rcases Nat.lt_or_ge st.infile.rest.length 8 with h8 | h8
    · refine ⟨{ st with
          infile := { data := st.infile.data,
                      pos := st.infile.pos + max 4 st.infile.rest.length,
                      eofbit := false, failbit := true },
          probes := st.probes ++ [st.infile.pos] }, fun k => ?_, rfl, rfl, rfl⟩
      rw [show n + 1 + 2 + k = ((n + 1 + k) + 1) + 1 by omega, main_loop_succ,
        guard_of_good _ hg]
      simp only [Bool.false_eq_true, if_false, main_body_short bs base _ st hg h8]
      exact main_loop_done bs base _ _ rfl
    · have hne : (st.infile.rest.drop 4).take 4 ≠ FTYP := by
        rw [drop_rest]
        exact hno _
      have hlen : (st.infile.adv bs).rest.length ≤ n := by
        rw [rest_adv, List.length_drop]
        omega
      obtain ⟨st1, hrun, hf, hi, hfail⟩ := ih
        { st with infile := st.infile.adv bs, probes := st.probes ++ [st.infile.pos] }
        hg hlen hno
      refine ⟨st1, fun k => ?_, hf, hi, hfail⟩
      rw [show n + 1 + 2 + k = (n + 2 + k) + 1 by omega, main_loop_succ, guard_of_good _ hg]
      simp only [Bool.false_eq_true, if_false, main_body_miss bs base _ st hg h8 hne]
      exact hrun k

/-! ## An atom of `2 ^ 31` bytes -/

theorem be32_big : be32 0x80 0 0 0 = 2 ^ 31 := by decide

theorem sext32_big : sext32 (be32 0x80 0 0 0) = 2 ^ 64 - 2 ^ 31 := by
  rw [be32_big]
  simp only [sext32]
  norm_num

theorem big_atom_of_length (pl : List Byte) : (big_atom_of pl).length = pl.length + 8 := rfl

theorem big_atom_length : big_atom.length = 2 ^ 31 := by
  unfold big_atom
  rw [big_atom_of_length, List.length_replicate]
  norm_num

theorem carve_sign_extended (pl : List Byte) (hl : pl.length + 8 = 2 ^ 31) (k : Nat) :
    carve_loop (k + 2) (stream_at (big_atom_of pl) 0) []
      = some ({ data := big_atom_of pl, pos := 2 ^ 31, eofbit := true, failbit := true },
              big_atom_of pl ++ List.replicate (2 ^ 64 - 2 ^ 32) 255) := by
  have hg : (stream_at (big_atom_of pl) 0).good = true := rfl
  have hr : (stream_at (big_atom_of pl) 0).rest
      = 0x80 :: 0 :: 0 :: 0 :: 0x66 :: 0x74 :: 0x79 :: 0x70 :: pl := rfl
  have hrl : (stream_at (big_atom_of pl) 0).rest.length = 2 ^ 31 := by
    rw [hr]
    simp only [List.length_cons]
    omega
  have hgt : (stream_at (big_atom_of pl) 0).rest.length < 2 ^ 64 - 2 ^ 31 := by
    rw [hrl]
    norm_num
  have h8 : 8 ≤ be32 0x80 0 0 0 := by
    rw [be32_big]
    norm_num
  have hv : is_valid_atom_type [0x66, 0x74, 0x79, 0x70] = true := by decide
  have hsub : 2 ^ 64 - 2 ^ 31 - 2 ^ 31 = 2 ^ 64 - 2 ^ 32 := by norm_num
  rw [show k + 2 = (k + 1) + 1 by omega,
    carve_copy _ _ [] 0x80 0 0 0 0x66 0x74 0x79 0x70 pl hg hr h8 hv, sext32_big,
    copy_n_gt _ [] _ hg hgt]
  have he : ({ (stream_at (big_atom_of pl) 0).adv (stream_at (big_atom_of pl) 0).rest.length
      with eofbit := true, failbit := true } : ifstream).eof = true := rfl
  rw [carve_eof _ _ _ he, hrl, hsub]
  simp only [stream_at, ifstream.adv, ifstream.rest, List.drop_zero, Nat.zero_add,
    List.nil_append, big_atom_of]

theorem big_atom_declared : be32 0x80 0 0 0 = big_atom.length := by
  rw [big_atom_length, be32_big]

theorem rest_stream_at_zero (data : List Byte) : (stream_at data 0).rest = data := rfl

theorem big_atom_rest_length : 8 ≤ (stream_at big_atom 0).rest.length := by
  rw [rest_stream_at_zero, big_atom_length]
  norm_num

theorem big_atom_signature : ((stream_at big_atom 0).rest.drop 4).take 4 = FTYP := rfl

/-- C1, the code at a failing input.  The input is one well-formed `ftyp` atom of
`2 ^ 31` bytes at offset 0, followed by the end of the input.  The probe at 0
succeeds, and the carve loop writes the atom followed by `2 ^ 64 - 2 ^ 32` bytes
`0xFF`, not the atom alone: `read_size` has turned the length `2 ^ 31` into
`2 ^ 64 - 2 ^ 31`. -/
theorem carve_big_atom_overruns :
    atom_ok big_atom = true ∧ big_atom.length = 2 ^ 31
      ∧ is_mov_file (stream_at big_atom 0) = (true, stream_at big_atom 0)
      ∧ ∀ k, carve_loop (k + 2) (stream_at big_atom 0) []
          = some ({ data := big_atom, pos := 2 ^ 31, eofbit := true, failbit := true },
                  big_atom ++ List.replicate (2 ^ 64 - 2 ^ 32) 255) := by
  have hl : big_atom.length = 2 ^ 31 := big_atom_length
  refine ⟨?_, hl, ?_, ?_⟩
  · rw [atom_ok_iff]
    exact ⟨0x80, 0, 0, 0, 0x66, 0x74, 0x79, 0x70, List.replicate (2 ^ 31 - 8) 0, rfl,
      big_atom_declared, by decide⟩
  · have hg : (stream_at big_atom 0).good = true := rfl
    rw [is_mov_file_full _ hg big_atom_rest_length, decide_eq_true big_atom_signature]
  · intro k
    exact carve_sign_extended _ (by rw [List.length_replicate]; norm_num) k

/-! ## The signature probe: the claims -/

/-- C3.  On a stream in good state with at least 8 bytes left from the cursor,
`is_mov_file` returns true exactly when the bytes at offsets 4 to 7 from the
cursor are `ftyp`, and in both cases it leaves the stream as it was: the same
cursor offset, still in good state. -/
theorem is_mov_file_probe (s : ifstream) (hg : s.good = true)
    (h8 : s.pos + 8 ≤ s.data.length) :
    ((is_mov_file s).1 = true ↔ (s.data.drop (s.pos + 4)).take 4 = FTYP)
      ∧ (is_mov_file s).2 = s ∧ (is_mov_file s).2.pos = s.pos
      ∧ (is_mov_file s).2.good = true := by
  have h8r : 8 ≤ s.rest.length := by
    rw [rest_length]
    omega
  rw [is_mov_file_full s hg h8r, drop_rest]
  exact ⟨by simp, rfl, rfl, hg⟩

theorem is_mov_file_probe_witness :
    (stream_at two_containers 16).good = true
      ∧ (stream_at two_containers 16).pos + 8 ≤ (stream_at two_containers 16).data.length
      ∧ (((is_mov_file (stream_at two_containers 16)).1 = true
            ↔ ((stream_at two_containers 16).data.drop
                ((stream_at two_containers 16).pos + 4)).take 4 = FTYP)
          ∧ (is_mov_file (stream_at two_containers 16)).2 = stream_at two_containers 16
          ∧ (is_mov_file (stream_at two_containers 16)).2.pos = (stream_at two_containers 16).pos
          ∧ (is_mov_file (stream_at two_containers 16)).2.good = true) :=
  ⟨by decide, by decide, is_mov_file_probe (stream_at two_containers 16) (by decide) (by decide)⟩

/-- C4, the code at two failing inputs.  On the empty input and on the 6 bytes
`00 00 00 00 66 74`, both probed at offset 0, `is_mov_file` returns false, and
the cursor is not back at 0: the buffer position is 4, respectively 6, the
stream is in fail state, and `tellg` answers `-1`. -/
theorem is_mov_file_short_leaves_cursor :
    is_mov_file (stream_at [] 0) = (false, ifstream.mk [] 4 false true)
      ∧ (is_mov_file (stream_at [] 0)).2.tellg.1 = -1
      ∧ is_mov_file (stream_at cut_signature 0)
          = (false, ifstream.mk cut_signature 6 false true)
      ∧ (is_mov_file (stream_at cut_signature 0)).2.tellg.1 = -1 := by
  decide

/-! ## Reading the length: the claim -/

/-- C5, the code at a failing input.  On the four bytes `80 00 00 00`, whose
unsigned big-endian value is `2 ^ 31`, `read_size` returns `2 ^ 64 - 2 ^ 31`,
which is not below `2 ^ 32`; the cursor is moved forward by 4. -/
theorem read_size_sign_extends :
    read_size (stream_at [0x80, 0, 0, 0] 0)
        = (2 ^ 64 - 2 ^ 31, stream_at [0x80, 0, 0, 0] 4)
      ∧ be32 0x80 0 0 0 = 2 ^ 31 ∧ ¬ (read_size (stream_at [0x80, 0, 0, 0] 0)).1 < 2 ^ 32 := by
  decide

/-! ## The carve loop: the claims -/

/-- C6.  At a complete header with a recognized tag: when the declared length is
exactly 8, the round of the carve loop appends exactly the 8 header bytes to the
output and the loop goes on, in good state, with the header that starts 8 bytes
further on; when the declared length is 7 or less, the loop ends and the output
is left as it was. -/
theorem carve_length_boundary (fuel : Nat) (s : ifstream) (out : List Byte)
    (b0 b1 b2 b3 c0 c1 c2 c3 : Byte) (t : List Byte) (hg : s.good = true)
    (hr : s.rest = b0 :: b1 :: b2 :: b3 :: c0 :: c1 :: c2 :: c3 :: t)
    (hv : is_valid_atom_type [c0, c1, c2, c3] = true) :
    (be32 b0 b1 b2 b3 = 8 →
        carve_loop (fuel + 1) s out
            = carve_loop fuel (s.adv 8) (out ++ [b0, b1, b2, b3, c0, c1, c2, c3])
          ∧ (s.adv 8).good = true ∧ (s.adv 8).eof = false)
      ∧ (be32 b0 b1 b2 b3 < 8 → carve_loop (fuel + 1) s out = some (s.adv 8, out)) := by
  constructor
  · intro h8
    have hle : 8 ≤ s.rest.length := by
      rw [hr]
      simp only [List.length_cons]
      omega
    have hsz : sext32 (be32 b0 b1 b2 b3) = 8 := by
      rw [h8]
      exact sext32_lt 8 (by norm_num)
    have htake : s.rest.take 8 = [b0, b1, b2, b3, c0, c1, c2, c3] := by
      rw [hr]
      rfl
    refine ⟨?_, hg, eof_of_good s hg⟩
    rw [carve_copy fuel s out b0 b1 b2 b3 c0 c1 c2 c3 t hg hr (by omega) hv, hsz,
      copy_n_le s out 8 hg hle, htake]
  · intro h8
    exact carve_stop_size fuel s out b0 b1 b2 b3 c0 c1 c2 c3 t hg hr h8

theorem carve_length_boundary_witness :
    ((stream_at two_containers 16).good = true
        ∧ (stream_at two_containers 16).rest
            = 0 :: 0 :: 0 :: 8 :: 0x6d :: 0x6f :: 0x6f :: 0x76
                :: ((stream_at two_containers 16).rest.drop 8)
        ∧ is_valid_atom_type [0x6d, 0x6f, 0x6f, 0x76] = true
        ∧ be32 0 0 0 8 = 8
        ∧ carve_loop 3 (stream_at two_containers 16) [1]
            = carve_loop 2 ((stream_at two_containers 16).adv 8)
                ([1] ++ [0, 0, 0, 8, 0x6d, 0x6f, 0x6f, 0x76]))
      ∧ ((stream_at (0 :: 0 :: 0 :: 7 :: 0x6d :: 0x6f :: 0x6f :: 0x76 :: [5]) 0).good = true
        ∧ be32 0 0 0 7 < 8
        ∧ carve_loop 3 (stream_at (0 :: 0 :: 0 :: 7 :: 0x6d :: 0x6f :: 0x6f :: 0x76 :: [5]) 0) [1]
            = some ((stream_at (0 :: 0 :: 0 :: 7 :: 0x6d :: 0x6f :: 0x6f :: 0x76 :: [5]) 0).adv 8,
                [1])) :=
  ⟨⟨by decide, by decide, by decide, by decide,
      ((carve_length_boundary 2 (stream_at two_containers 16) [1] 0 0 0 8 0x6d 0x6f 0x6f 0x76
        ((stream_at two_containers 16).rest.drop 8) (by decide) (by decide) (by decide)).1
        (by decide)).1⟩,
    ⟨by decide, by decide,
      (carve_length_boundary 2
        (stream_at (0 :: 0 :: 0 :: 7 :: 0x6d :: 0x6f :: 0x6f :: 0x76 :: [5]) 0) [1]
        0 0 0 7 0x6d 0x6f 0x6f 0x76 [5] (by decide) (by decide) (by decide)).2 (by decide)⟩⟩

/-- C7.  `is_valid_atom_type` is true exactly on the seven tags `ftyp`, `moov`,
`mdat`, `free`, `skip`, `wide`, `pnot`; and at a complete header whose tag is
none of the seven, whatever its length field, the carve loop ends and the output
is left as it was. -/
theorem carve_unknown_type (fuel : Nat) (s : ifstream) (out : List Byte)
    (b0 b1 b2 b3 c0 c1 c2 c3 : Byte) (t : List Byte) (hg : s.good = true)
    (hr : s.rest = b0 :: b1 :: b2 :: b3 :: c0 :: c1 :: c2 :: c3 :: t)
    (hv : [c0, c1, c2, c3] ∉ [FTYP, MOOV, MDAT, FREE, SKIP, WIDE, PNOT]) :
    (∀ ty, is_valid_atom_type ty = true ↔ ty ∈ [FTYP, MOOV, MDAT, FREE, SKIP, WIDE, PNOT])
      ∧ carve_loop (fuel + 1) s out = some (s.adv 8, out) := by
  refine ⟨is_valid_atom_type_iff, ?_⟩
  have hv2 : is_valid_atom_type [c0, c1, c2, c3] = false := by
    cases h : is_valid_atom_type [c0, c1, c2, c3] with
    | false => rfl
    | true => exact absurd ((is_valid_atom_type_iff _).1 h) hv
  exact carve_stop_type fuel s out b0 b1 b2 b3 c0 c1 c2 c3 t hg hr hv2

theorem carve_unknown_type_witness :
    (stream_at two_containers 24).good = true
      ∧ (stream_at two_containers 24).rest
          = 9 :: 9 :: 9 :: 9 :: 9 :: 9 :: 9 :: 9 :: ((stream_at two_containers 24).rest.drop 8)
      ∧ ([9, 9, 9, 9] : List Byte) ∉ [FTYP, MOOV, MDAT, FREE, SKIP, WIDE, PNOT]
      ∧ ((∀ ty, is_valid_atom_type ty = true
            ↔ ty ∈ [FTYP, MOOV, MDAT, FREE, SKIP, WIDE, PNOT])
          ∧ carve_loop 1 (stream_at two_containers 24) [1, 2]
              = some ((stream_at two_containers 24).adv 8, [1, 2])) :=
  ⟨by decide, by decide, by decide,
    carve_unknown_type 0 (stream_at two_containers 24) [1, 2] 9 9 9 9 9 9 9 9
      ((stream_at two_containers 24).rest.drop 8) (by decide) (by decide) (by decide)⟩

/-- C8.  When fewer than 8 bytes are left at the cursor as the carve loop reads
the next header, whatever these bytes are, the loop ends, in end-of-file state,
and the output is exactly what had been copied before. -/
theorem carve_partial_header (fuel : Nat) (s : ifstream) (out : List Byte)
    (hg : s.good = true) (hr : s.rest.length < 8) :
    ∃ s2, carve_loop (fuel + 1) s out = some (s2, out) ∧ s2.failbit = true
      ∧ s2.data = s.data := by
  exact ⟨_, carve_short fuel s out hg hr, rfl, rfl⟩

theorem carve_partial_header_witness :
    (stream_at cut_signature 0).good = true ∧ (stream_at cut_signature 0).rest.length < 8
      ∧ ∃ s2, carve_loop 1 (stream_at cut_signature 0) [3] = some (s2, [3])
          ∧ s2.failbit = true ∧ s2.data = (stream_at cut_signature 0).data :=
  ⟨by decide, by decide, carve_partial_header 0 (stream_at cut_signature 0) [3]
    (by decide) (by decide)⟩

/-! ## The scan loop: the claims -/

/-- A carve session that stops exactly at a block start.  With block size 16 on
the input `two_containers`, the carve session started by the probe at offset 0
stops with the cursor at 32, the start of a block of which nothing has been
read; the probes of the run are at the offsets 0 and 48, so offset 32 is never
probed, although a probe there would succeed, and the run creates one file
only. -/
theorem resync_skips_block :
    carve_loop 4 (stream_at two_containers 0) []
        = some (stream_at two_containers 32, two_containers.take 24)
      ∧ 32 / 16 * 16 = 32
      ∧ (is_mov_file (stream_at two_containers 32)).1 = true
      ∧ (main two_containers 16 "video_" 0 6).map (fun st => st.probes) = some [0, 48]
      ∧ (main two_containers 16 "video_" 0 6).map (fun st => st.files.length) = some 1 := by
  decide

theorem is_mov_file_at (data : List Byte) (p : Nat) (h8 : p + 8 ≤ data.length) :
    is_mov_file (stream_at data p)
      = (decide ((data.drop (p + 4)).take 4 = FTYP), stream_at data p) := by
  have hg : (stream_at data p).good = true := rfl
  have h8r : 8 ≤ (stream_at data p).rest.length := by
    rw [rest_length]
    simp only [stream_at]
    omega
  rw [is_mov_file_full _ hg h8r, drop_rest]
  rfl

theorem infix_of_take_drop (data : List Byte) (i : Nat) (h : (data.drop i).take 4 = FTYP) :
    FTYP <:+: data := by
  rw [← h]
  exact (List.take_prefix 4 _).isInfix.trans (List.drop_suffix i data).isInfix

/-- C9.  Let `k` be the first block index at which the bytes `k * bs + 4` to
`k * bs + 7` of the input exist and are `ftyp`.  Then the probe at every block
before it fails and leaves the stream as it was, the probe at `k * bs` succeeds,
the run of `main` ends, its first `k + 1` probes are at the offsets
`0, bs, ..., k * bs`, and its first output file is the one carved from offset
`k * bs`. -/
theorem scan_first_signature (data : List Byte) (bs : Nat) (base : String) (idx k : Nat)
    (hbs : 1 ≤ bs) (hk : (data.drop (k * bs + 4)).take 4 = FTYP)
    (hmin : ∀ j < k, (data.drop (j * bs + 4)).take 4 ≠ FTYP) :
    (∀ j < k, is_mov_file (stream_at data (j * bs)) = (false, stream_at data (j * bs)))
      ∧ is_mov_file (stream_at data (k * bs)) = (true, stream_at data (k * bs))
      ∧ ∃ st1 s2 out,
          (∀ m, main data bs base idx (data.length + 3 + m) = some st1)
          ∧ (∀ m, carve_loop (data.length + 2 + m) (stream_at data (k * bs)) [] = some (s2, out))
          ∧ st1.probes.take (k + 1) = (List.range (k + 1)).map (fun j => j * bs)
          ∧ st1.files.head? = some (base ++ toString ((idx + 1) % 2 ^ 32) ++ ".mov", out) := by
  have hklen : k * bs + 8 ≤ data.length := by
    have h := length_of_take_four _ hk
    rw [List.length_drop] at h
    omega
  have hkk : k ≤ k * bs := Nat.le_mul_of_pos_right k hbs
  have hjlen : ∀ j < k, j * bs + 8 ≤ data.length := by
    intro j hj
    have := Nat.mul_le_mul_right bs (Nat.le_of_lt hj)
    omega
  refine ⟨?_, ?_, ?_⟩
  · intro j hj
    rw [is_mov_file_at data _ (hjlen j hj), decide_eq_false (hmin j hj)]
  · rw [is_mov_file_at data _ hklen, decide_eq_true hk]
  · have hgk : (stream_at data (k * bs)).good = true := rfl
    have hrk : (stream_at data (k * bs)).rest.length = data.length - k * bs := by
      rw [rest_length]
      rfl
    obtain ⟨s2, out, hrun, -, -⟩ :=
      carve_total (stream_at data (k * bs)).rest.length (stream_at data (k * bs)) [] hgk
        (Nat.le_refl _)
    have hinit : (main_init data idx).infile.good = true → (main_init data idx).infile.rest.length
        ≤ data.length := by
      intro _
      rw [rest_length]
      exact Nat.sub_le _ _
    obtain ⟨st1, hst1⟩ := main_total bs base hbs data.length (main_init data idx) hinit
    have hc1 : ∀ m, carve_loop (data.length + 2 + m) (stream_at data (k * bs)) [] = some (s2, out) := by
      intro m
      have := hrun (k * bs + m)
      rw [hrk, show data.length - k * bs + 2 + (k * bs + m) = data.length + 2 + m by omega] at this
      exact this
    have hc2 : carve_loop (data.length + 2 - k) (stream_at data (0 + k * bs)) [] = some (s2, out) := by
      have := hrun (k * bs - k)
      rw [hrk, show data.length - k * bs + 2 + (k * bs - k) = data.length + 2 - k by omega] at this
      rw [Nat.zero_add]
      exact this
    refine ⟨st1, s2, out, hst1, hc1, ?_⟩
    have hrun0 := hst1 0
    have hm : ∀ j < k, 0 + j * bs + 8 ≤ data.length
        ∧ (data.drop (0 + j * bs + 4)).take 4 ≠ FTYP := by
      intro j hj
      rw [Nat.zero_add]
      exact ⟨hjlen j hj, hmin j hj⟩
    rw [show data.length + 3 + 0 = ((data.length + 2 - k) + 1) + k by omega,
      scan_skip bs base data k _ (main_init data idx) 0 rfl hm, main_loop_succ] at hrun0
    have h8r : 8 ≤ (stream_at data (0 + k * bs)).rest.length := by
      rw [rest_length]
      simp only [stream_at]
      omega
    have hft : ((stream_at data (0 + k * bs)).rest.drop 4).take 4 = FTYP := by
      rw [drop_rest]
      simp only [stream_at, Nat.zero_add]
      exact hk
    have hgk0 : (stream_at data (0 + k * bs)).good = true := rfl
    rw [show ((stream_at data (0 + k * bs)).fail || (stream_at data (0 + k * bs)).eof) = false
      from rfl] at hrun0
    simp only [Bool.false_eq_true, if_false] at hrun0
    rw [main_body_hit bs base _ _ s2 out hgk0 h8r hft hc2] at hrun0
    obtain ⟨hfiles, hprobes⟩ := main_loop_keeps bs base _ _ st1 hrun0
    simp only [main_init, List.nil_append, stream_at, Nat.zero_add] at hfiles hprobes
    constructor
    · have hP : (List.map (fun j => j * bs) (List.range k) ++ [k * bs])
          = (List.range (k + 1)).map (fun j => j * bs) := by
        rw [List.range_succ, List.map_append]
        rfl
      rw [hP] at hprobes
      have := List.prefix_iff_eq_take.1 hprobes
      rw [List.length_map, List.length_range] at this
      exact this.symm
    · obtain ⟨t, ht⟩ := hfiles
      rw [← ht]
      rfl

theorem scan_first_signature_witness :
    1 ≤ 16 ∧ (late_container.drop (1 * 16 + 4)).take 4 = FTYP
      ∧ (∀ j < 1, (late_container.drop (j * 16 + 4)).take 4 ≠ FTYP)
      ∧ ((∀ j < 1, is_mov_file (stream_at late_container (j * 16))
            = (false, stream_at late_container (j * 16)))
        ∧ is_mov_file (stream_at late_container (1 * 16))
            = (true, stream_at late_container (1 * 16))
        ∧ ∃ st1 s2 out,
            (∀ m, main late_container 16 "video_" 0 (late_container.length + 3 + m) = some st1)
            ∧ (∀ m, carve_loop (late_container.length + 2 + m)
                  (stream_at late_container (1 * 16)) [] = some (s2, out))
            ∧ st1.probes.take (1 + 1) = (List.range (1 + 1)).map (fun j => j * 16)
            ∧ st1.files.head? = some ("video_" ++ toString ((0 + 1) % 2 ^ 32) ++ ".mov", out)) :=
  ⟨by decide, by decide, by decide,
    scan_first_signature late_container 16 "video_" 0 1 (by decide) (by decide) (by decide)⟩

/-- C10.  On an input in which the tag `ftyp` does not occur, with a block size of
at least 1, the run of `main` ends, and it ends with no output file created, the
file index as it was and the input stream in fail state. -/
theorem scan_without_signature (data : List Byte) (bs : Nat) (base : String) (idx : Nat)
    (hbs : 1 ≤ bs) (hno : ¬ FTYP <:+: data) :
    ∃ st1, (∀ m, main data bs base idx (data.length + 2 + m) = some st1) ∧ st1.files = []
      ∧ st1.mov_index = idx ∧ st1.infile.fail = true := by
  have hno2 : ∀ i, ((main_init data idx).infile.data.drop i).take 4 ≠ FTYP :=
    fun i h => hno (infix_of_take_drop data i h)
  have hlen : (main_init data idx).infile.rest.length ≤ data.length := by
    rw [rest_length]
    exact Nat.sub_le _ _
  obtain ⟨st1, hrun, hf, hi, hfail⟩ :=
    scan_no_match bs base hbs data.length (main_init data idx) rfl hlen hno2
  exact ⟨st1, hrun, hf, hi, hfail⟩

theorem scan_without_signature_witness :
    1 ≤ 4 ∧ ¬ FTYP <:+: no_signature
      ∧ ∃ st1, (∀ m, main no_signature 4 "video_" 0 (no_signature.length + 2 + m) = some st1)
          ∧ st1.files = [] ∧ st1.mov_index = 0 ∧ st1.infile.fail = true :=
  ⟨by decide, by decide, scan_without_signature no_signature 4 "video_" 0 (by decide) (by decide)⟩

/-! ## Invariants of the scan loop -/

theorem good_of_guard (s : ifstream) (h : (s.fail || s.eof) = false) : s.good = true := by
  cases s with
  | mk d p e f => cases e <;> cases f <;> simp_all [ifstream.good, ifstream.fail, ifstream.eof]

theorem carve_result (fuel : Nat) (s : ifstream) (out : List Byte) (s2 : ifstream)
    (out2 : List Byte) (hg : s.good = true) (h : carve_loop fuel s out = some (s2, out2)) :
    s2.data = s.data ∧ (s2.failbit = true ∨ (s2.good = true ∧ s.pos + 8 ≤ s2.pos)) := by
  obtain ⟨s3, out3, hrun, hd, hp⟩ := carve_total s.rest.length s out hg (Nat.le_refl _)
  have h1 := carve_mono_add fuel (s.rest.length + 2) s out _ h
  have h2 := hrun fuel
  rw [show s.rest.length + 2 + fuel = fuel + (s.rest.length + 2) by omega, h1] at h2
  simp only [Option.some.injEq, Prod.mk.injEq] at h2
  rw [h2.1]
  exact ⟨hd, hp⟩

theorem main_body_cases (bs : Nat) (base : String) (fuel : Nat) (st st2 : MainState)
    (hg : st.infile.good = true) (h : main_body bs base fuel st = some st2) :
    (8 ≤ st.infile.rest.length
        ∧ st2 = { st with infile := st.infile.adv bs, probes := st.probes ++ [st.infile.pos] })
      ∨ (st2.infile.failbit = true ∧ st2.files = st.files ∧ st2.mov_index = st.mov_index
          ∧ st2.probes = st.probes ++ [st.infile.pos])
      ∨ (∃ s2 out, carve_loop fuel st.infile [] = some (s2, out)
          ∧ st2 = { infile := resync bs s2, mov_index := (st.mov_index + 1) % 2 ^ 32,
                    files := st.files
                      ++ [(base ++ toString ((st.mov_index + 1) % 2 ^ 32) ++ ".mov", out)],
                    probes := st.probes ++ [st.infile.pos] }) := by
  rcases Nat.lt_or_ge st.infile.rest.length 8 with h8 | h8
  · rw [main_body_short bs base fuel st hg h8] at h
    simp only [Option.some.injEq] at h
    subst h
    exact Or.inr (Or.inl ⟨rfl, rfl, rfl, rfl⟩)
  · by_cases hft : (st.infile.rest.drop 4).take 4 = FTYP
    · cases hc : carve_loop fuel st.infile [] with
      | none =>
        simp only [main_body, is_mov_file_full st.infile hg h8, hft, decide_True, if_true,
          hc] at h
        cases h
      | some r =>
        obtain ⟨s2, out⟩ := r
        rw [main_body_hit bs base fuel st s2 out hg h8 hft hc] at h
        simp only [Option.some.injEq] at h
        exact Or.inr (Or.inr ⟨s2, out, rfl, h.symm⟩)
    · rw [main_body_miss bs base fuel st hg h8 hft] at h
      simp only [Option.some.injEq] at h
      exact Or.inl ⟨h8, h.symm⟩

theorem main_loop_invariant (bs : Nat) (base : String) (I : MainState → Prop)
    (hstep : ∀ fuel st st2, I st → st.infile.good = true →
      main_body bs base fuel st = some st2 → I st2)
    (fuel : Nat) (st st1 : MainState) (hI : I st)
    (h : main_loop bs base fuel st = some st1) :
    I st1 ∧ (st1.infile.fail || st1.infile.eof) = true := by
  induction fuel generalizing st with
  | zero =>
    have h0 : main_loop bs base 0 st = none := rfl
    rw [h0] at h
    cases h
  | succ f ih =>
    rw [main_loop_succ] at h
    cases hguard : (st.infile.fail || st.infile.eof) with
    | true =>
      rw [hguard] at h
      simp only [if_true, Option.some.injEq] at h
      subst h
      exact ⟨hI, hguard⟩
    | false =>
      rw [hguard] at h
      simp only [Bool.false_eq_true, if_false] at h
      cases hb : main_body bs base f st with
      | none =>
        rw [hb] at h
        cases h
      | some st2 =>
        rw [hb] at h
        exact ih st2 (hstep f st st2 hI (good_of_guard _ hguard) hb) h

theorem not_good_of_failbit (s : ifstream) (hf : s.failbit = true) : s.good = false := by
  cases s with
  | mk d p e f => cases e <;> simp_all [ifstream.good]

theorem resync_failed_good (bs : Nat) (s : ifstream) (hf : s.failbit = true) :
    (resync bs s).good = false := by
  rw [resync_failed bs s hf]
  exact not_good_of_failbit _ hf

theorem main_loop_probes_le (bs : Nat) (base : String) (fuel : Nat) (st st1 : MainState)
    (h : main_loop bs base fuel st = some st1) :
    st1.probes.length + 1 ≤ st.probes.length + fuel := by
  induction fuel generalizing st with
  | zero =>
    have h0 : main_loop bs base 0 st = none := rfl
    rw [h0] at h
    cases h
  | succ f ih =>
    rw [main_loop_succ] at h
    split_ifs at h with hguard
    · simp only [Option.some.injEq] at h
      subst h
      omega
    · cases hb : main_body bs base f st with
      | none =>
        rw [hb] at h
        cases h
      | some st2 =>
        rw [hb] at h
        have h2 := ih st2 h
        rw [(main_body_keeps bs base f st st2 hb).2, List.length_append,
          List.length_singleton] at h2
        omega

theorem main_init_rest_length (data : List Byte) (idx : Nat) :
    (main_init data idx).infile.good = true →
      (main_init data idx).infile.rest.length ≤ data.length := by
  intro _
  rw [rest_length]
  exact Nat.sub_le _ _

theorem files_le_probes_step (bs : Nat) (base : String) (fuel : Nat) (st st2 : MainState)
    (hI : st.files.length ≤ st.probes.length) (hg : st.infile.good = true)
    (h : main_body bs base fuel st = some st2) : st2.files.length ≤ st2.probes.length := by
  rcases main_body_cases bs base fuel st st2 hg h with ⟨-, h1⟩ | ⟨-, hf, -, hp⟩ | ⟨s2, out, -, h1⟩
  · subst h1
    simp only [List.length_append, List.length_singleton]
    omega
  · rw [hf, hp, List.length_append, List.length_singleton]
    omega
  · subst h1
    simp only [List.length_append, List.length_singleton]
    omega

/-- C13.  For every input and every block size of at least 1 the scan loop of
`main` terminates: with fuel `data.length + 3` or more the run returns a final
state, in which the input stream is in fail or end-of-file state; the run made
at most `data.length + 2` probes, and no more carve sessions (output files)
than probes. -/
theorem scan_terminates (data : List Byte) (bs : Nat) (base : String) (idx : Nat)
    (hbs : 1 ≤ bs) :
    ∃ st1, (∀ m, main data bs base idx (data.length + 3 + m) = some st1)
      ∧ (st1.infile.fail || st1.infile.eof) = true
      ∧ st1.probes.length ≤ data.length + 2
      ∧ st1.files.length ≤ st1.probes.length := by
  obtain ⟨st1, hst1⟩ :=
    main_total bs base hbs data.length (main_init data idx) (main_init_rest_length data idx)
  refine ⟨st1, hst1, ?_, ?_, ?_⟩
  · exact (main_loop_invariant bs base (fun _ => True) (fun _ _ _ _ _ _ => trivial) _ _ st1
      trivial (hst1 0)).2
  · have h := main_loop_probes_le bs base _ _ st1 (hst1 0)
    simp only [main_init, List.length_nil] at h
    omega
  · exact (main_loop_invariant bs base (fun st => st.files.length ≤ st.probes.length)
      (files_le_probes_step bs base) _ _ st1 (Nat.le_refl _) (hst1 0)).1

theorem scan_terminates_witness :
    1 ≤ 16
      ∧ ∃ st1, (∀ m, main two_containers 16 "video_" 0 (two_containers.length + 3 + m) = some st1)
          ∧ (st1.infile.fail || st1.infile.eof) = true
          ∧ st1.probes.length ≤ two_containers.length + 2
          ∧ st1.files.length ≤ st1.probes.length :=
  ⟨by decide, scan_terminates two_containers 16 "video_" 0 (by decide)⟩

theorem aligned_step (bs : Nat) (base : String) (fuel : Nat) (st st2 : MainState)
    (hI : (st.infile.good = true → st.infile.pos % bs = 0) ∧ ∀ p ∈ st.probes, p % bs = 0)
    (hg : st.infile.good = true) (h : main_body bs base fuel st = some st2) :
    (st2.infile.good = true → st2.infile.pos % bs = 0) ∧ ∀ p ∈ st2.probes, p % bs = 0 := by
  have hpos := hI.1 hg
  have hprobes : ∀ p ∈ st.probes ++ [st.infile.pos], p % bs = 0 := by
    intro p hp
    rcases List.mem_append.1 hp with hp | hp
    · exact hI.2 p hp
    · rw [List.mem_singleton.1 hp]
      exact hpos
  rcases main_body_cases bs base fuel st st2 hg h with ⟨-, h1⟩ | ⟨hfail, -, -, hp⟩ | ⟨s2, out, hc, h1⟩
  · subst h1
    refine ⟨fun _ => ?_, hprobes⟩
    simp only [ifstream.adv, Nat.add_mod_right]
    exact hpos
  · refine ⟨fun hg2 => ?_, ?_⟩
    · rw [not_good_of_failbit _ hfail] at hg2
      cases hg2
    · rw [hp]
      exact hprobes
  · subst h1
    refine ⟨fun hg2 => ?_, hprobes⟩
    rcases (carve_result fuel st.infile [] s2 out hg hc).2 with hf | ⟨hg3, -⟩
    · rw [resync_failed_good bs s2 hf] at hg2
      cases hg2
    · rw [resync_good bs s2 hg3]
      simp only [Nat.add_mod_right, Nat.mul_mod_left]

/-- C14.  For every input and every block size of at least 1, the run of `main`
ends, and every call of `is_mov_file` it has made was made with the cursor at a
multiple of the block size. -/
theorem probes_block_aligned (data : List Byte) (bs : Nat) (base : String) (idx : Nat)
    (hbs : 1 ≤ bs) :
    ∃ st1, (∀ m, main data bs base idx (data.length + 3 + m) = some st1)
      ∧ ∀ p ∈ st1.probes, p % bs = 0 := by
  obtain ⟨st1, hst1⟩ :=
    main_total bs base hbs data.length (main_init data idx) (main_init_rest_length data idx)
  refine ⟨st1, hst1, ?_⟩
  have hI0 : ((main_init data idx).infile.good = true → (main_init data idx).infile.pos % bs = 0)
      ∧ ∀ p ∈ (main_init data idx).probes, p % bs = 0 :=
    ⟨fun _ => Nat.zero_mod bs, fun p hp => absurd hp (List.not_mem_nil p)⟩
  exact (main_loop_invariant bs base
    (fun st => (st.infile.good = true → st.infile.pos % bs = 0) ∧ ∀ p ∈ st.probes, p % bs = 0)
    (aligned_step bs base) _ _ st1 hI0 (hst1 0)).1.2

theorem probes_block_aligned_witness :
    1 ≤ 16
      ∧ ∃ st1, (∀ m, main two_containers 16 "video_" 0 (two_containers.length + 3 + m) = some st1)
          ∧ ∀ p ∈ st1.probes, p % 16 = 0 :=
  ⟨by decide, probes_block_aligned two_containers 16 "video_" 0 (by decide)⟩

/-- C15.  With a block size of at least 1: when the probe at the cursor succeeds
while the big-endian length at the cursor is below 8, the round of the scan loop
still creates exactly one output file, which is empty, and the file index is
incremented by one; the scan then goes on, in good state, beyond the 8 header
bytes. -/
theorem empty_file_on_short_length (bs : Nat) (base : String) (fuel : Nat) (st : MainState)
    (b0 b1 b2 b3 : Byte) (t : List Byte) (hbs : 1 ≤ bs) (hg : st.infile.good = true)
    (hr : st.infile.rest = b0 :: b1 :: b2 :: b3 :: 0x66 :: 0x74 :: 0x79 :: 0x70 :: t)
    (h8 : be32 b0 b1 b2 b3 < 8) :
    (is_mov_file st.infile).1 = true
      ∧ main_body bs base (fuel + 1) st
        = some { infile := resync bs (st.infile.adv 8),
                 mov_index := (st.mov_index + 1) % 2 ^ 32,
                 files := st.files
                   ++ [(base ++ toString ((st.mov_index + 1) % 2 ^ 32) ++ ".mov", [])],
                 probes := st.probes ++ [st.infile.pos] }
      ∧ (resync bs (st.infile.adv 8)).good = true
      ∧ st.infile.pos + 8 < (resync bs (st.infile.adv 8)).pos := by
  have hlen : 8 ≤ st.infile.rest.length := by
    rw [hr]
    simp only [List.length_cons]
    omega
  have hft : (st.infile.rest.drop 4).take 4 = FTYP := by
    rw [hr]
    rfl
  have hc := carve_stop_size fuel st.infile [] b0 b1 b2 b3 0x66 0x74 0x79 0x70 t hg hr h8
  have hga : (st.infile.adv 8).good = true := hg
  refine ⟨?_, main_body_hit bs base (fuel + 1) st _ _ hg hlen hft hc, ?_, ?_⟩
  · rw [is_mov_file_full _ hg hlen, decide_eq_true hft]
  · rw [resync_good bs _ hga]
    exact hga
  · rw [resync_good bs _ hga]
    exact div_mul_add_gt (st.infile.pos + 8) bs hbs

theorem empty_file_on_short_length_witness :
    1 ≤ 4
      ∧ (main_init short_length_input 5).infile.good = true
      ∧ (main_init short_length_input 5).infile.rest
          = 0 :: 0 :: 0 :: 7 :: 0x66 :: 0x74 :: 0x79 :: 0x70 :: [1, 2]
      ∧ be32 0 0 0 7 < 8
      ∧ ((is_mov_file (main_init short_length_input 5).infile).1 = true
        ∧ main_body 4 "video_" (0 + 1) (main_init short_length_input 5)
          = some
            { infile := resync 4 ((main_init short_length_input 5).infile.adv 8),
              mov_index := ((main_init short_length_input 5).mov_index + 1) % 2 ^ 32,
              files := (main_init short_length_input 5).files
                ++ [("video_" ++ toString
                      (((main_init short_length_input 5).mov_index + 1) % 2 ^ 32) ++ ".mov", [])],
              probes := (main_init short_length_input 5).probes
                ++ [(main_init short_length_input 5).infile.pos] }
        ∧ (resync 4 ((main_init short_length_input 5).infile.adv 8)).good = true
        ∧ (main_init short_length_input 5).infile.pos + 8
            < (resync 4 ((main_init short_length_input 5).infile.adv 8)).pos) :=
  ⟨by decide, by decide, by decide, by decide,
    empty_file_on_short_length 4 "video_" 0 (main_init short_length_input 5) 0 0 0 7 [1, 2]
      (by decide) (by decide) (by decide) (by decide)⟩

theorem aligned_le_floor (s p bs : Nat) (hal : s % bs = 0) (h : s ≤ p) : s ≤ p / bs * bs := by
  have h1 : s / bs * bs = s := Nat.div_mul_cancel (Nat.dvd_of_mod_eq_zero hal)
  calc s = s / bs * bs := h1.symm
    _ ≤ p / bs * bs := Nat.mul_le_mul_right bs (Nat.div_le_div_right h)

theorem hit_progress (bs : Nat) (base : String) (fuel : Nat) (st : MainState)
    (s2 : ifstream) (out : List Byte) (hbs : 1 ≤ bs) (hg : st.infile.good = true)
    (hal : st.infile.pos % bs = 0) (hp : (is_mov_file st.infile).1 = true)
    (hc : carve_loop fuel (is_mov_file st.infile).2 [] = some (s2, out))
    (hg2 : s2.good = true) :
    ∃ st2, main_body bs base fuel st = some st2 ∧ st2.infile.good = true
      ∧ st.infile.pos + bs ≤ st2.infile.pos ∧ s2.pos < st2.infile.pos
      ∧ st2.probes = st.probes ++ [st.infile.pos] := by
  have h8 : 8 ≤ st.infile.rest.length := by
    rcases Nat.lt_or_ge st.infile.rest.length 8 with h | h
    · rw [is_mov_file_short _ hg h] at hp
      cases hp
    · exact h
  have hfull := is_mov_file_full _ hg h8
  rw [hfull] at hp hc
  have hft : (st.infile.rest.drop 4).take 4 = FTYP := of_decide_eq_true hp
  have hpos : st.infile.pos + 8 ≤ s2.pos := by
    rcases (carve_result fuel st.infile [] s2 out hg hc).2 with hf | ⟨-, h⟩
    · rw [not_good_of_failbit _ hf] at hg2
      cases hg2
    · exact h
  refine ⟨_, main_body_hit bs base fuel st s2 out hg h8 hft hc, ?_, ?_, ?_, rfl⟩
  · rw [resync_good bs s2 hg2]
    exact hg2
  · rw [resync_good bs s2 hg2]
    have := aligned_le_floor st.infile.pos s2.pos bs hal (by omega)
    simp only
    omega
  · rw [resync_good bs s2 hg2]
    exact div_mul_add_gt s2.pos bs hbs

theorem increasing_step (bs : Nat) (hbs : 1 ≤ bs) (base : String) (fuel : Nat)
    (st st2 : MainState)
    (hI : st.probes.Pairwise (fun a b => a < b)
      ∧ (st.infile.good = true → ∀ p ∈ st.probes, p < st.infile.pos))
    (hg : st.infile.good = true) (h : main_body bs base fuel st = some st2) :
    st2.probes.Pairwise (fun a b => a < b)
      ∧ (st2.infile.good = true → ∀ p ∈ st2.probes, p < st2.infile.pos) := by
  have hlt := hI.2 hg
  have hpw : (st.probes ++ [st.infile.pos]).Pairwise (fun a b => a < b) := by
    rw [List.pairwise_append]
    refine ⟨hI.1, List.pairwise_singleton _ _, ?_⟩
    intro a ha b hb
    rw [List.mem_singleton.1 hb]
    exact hlt a ha
  have hnext : ∀ q, st.infile.pos < q → ∀ p ∈ st.probes ++ [st.infile.pos], p < q := by
    intro q hq p hp
    rcases List.mem_append.1 hp with hp | hp
    · exact Nat.lt_trans (hlt p hp) hq
    · rw [List.mem_singleton.1 hp]
      exact hq
  rcases main_body_cases bs base fuel st st2 hg h with ⟨-, h1⟩ | ⟨hfail, -, -, hp⟩ | ⟨s2, out, hc, h1⟩
  · subst h1
    refine ⟨hpw, fun _ => hnext _ ?_⟩
    simp only [ifstream.adv]
    omega
  · refine ⟨by rw [hp]; exact hpw, fun hg2 => ?_⟩
    rw [not_good_of_failbit _ hfail] at hg2
    cases hg2
  · subst h1
    refine ⟨hpw, fun hg2 => ?_⟩
    rcases (carve_result fuel st.infile [] s2 out hg hc).2 with hf | ⟨hg3, hpos⟩
    · rw [resync_failed_good bs s2 hf] at hg2
      cases hg2
    · refine hnext _ ?_
      rw [resync_good bs s2 hg3]
      have := div_mul_add_gt s2.pos bs hbs
      simp only
      omega

/-- C16.  With a block size of at least 1: when the probe at a block-aligned
offset `s` succeeds and the carve session it starts ends with the stream in good
state, the round of the scan loop leaves the cursor, in good state, at an offset
of at least `s + bs` that lies beyond the offset at which carving stopped; and
in the whole run of `main` on an input the probe offsets are strictly
increasing, so that no block is probed twice and no carve session starts inside
what an earlier one has read. -/
theorem scan_progress (data : List Byte) (bs : Nat) (base : String) (idx fuel : Nat)
    (st : MainState) (s2 : ifstream) (out : List Byte) (hbs : 1 ≤ bs)
    (hg : st.infile.good = true) (hal : st.infile.pos % bs = 0)
    (hp : (is_mov_file st.infile).1 = true)
    (hc : carve_loop fuel (is_mov_file st.infile).2 [] = some (s2, out))
    (hg2 : s2.good = true) :
    (∃ st2, main_body bs base fuel st = some st2 ∧ st2.infile.good = true
        ∧ st.infile.pos + bs ≤ st2.infile.pos ∧ s2.pos < st2.infile.pos
        ∧ st2.probes = st.probes ++ [st.infile.pos])
      ∧ ∃ st1, (∀ m, main data bs base idx (data.length + 3 + m) = some st1)
          ∧ st1.probes.Pairwise (fun a b => a < b) := by
  refine ⟨hit_progress bs base fuel st s2 out hbs hg hal hp hc hg2, ?_⟩
  obtain ⟨st1, hst1⟩ :=
    main_total bs base hbs data.length (main_init data idx) (main_init_rest_length data idx)
  refine ⟨st1, hst1, ?_⟩
  have hI0 : (main_init data idx).probes.Pairwise (fun a b => a < b)
      ∧ ((main_init data idx).infile.good = true →
          ∀ p ∈ (main_init data idx).probes, p < (main_init data idx).infile.pos) :=
    ⟨List.Pairwise.nil, fun _ p hp => absurd hp (List.not_mem_nil p)⟩
  exact (main_loop_invariant bs base
    (fun st => st.probes.Pairwise (fun a b => a < b)
      ∧ (st.infile.good = true → ∀ p ∈ st.probes, p < st.infile.pos))
    (increasing_step bs hbs base) _ _ st1 hI0 (hst1 0)).1.1

theorem scan_progress_witness :
    1 ≤ 16 ∧ (main_init two_containers 0).infile.good = true
      ∧ (main_init two_containers 0).infile.pos % 16 = 0
      ∧ (is_mov_file (main_init two_containers 0).infile).1 = true
      ∧ carve_loop 4 (is_mov_file (main_init two_containers 0).infile).2 []
          = some (stream_at two_containers 32, two_containers.take 24)
      ∧ (stream_at two_containers 32).good = true
      ∧ ((∃ st2, main_body 16 "video_" 4 (main_init two_containers 0) = some st2
            ∧ st2.infile.good = true
            ∧ (main_init two_containers 0).infile.pos + 16 ≤ st2.infile.pos
            ∧ (stream_at two_containers 32).pos < st2.infile.pos
            ∧ st2.probes = (main_init two_containers 0).probes
                ++ [(main_init two_containers 0).infile.pos])
        ∧ ∃ st1,
            (∀ m, main two_containers 16 "video_" 0 (two_containers.length + 3 + m) = some st1)
            ∧ st1.probes.Pairwise (fun a b => a < b)) :=
  ⟨by decide, by decide, by decide, by decide, by decide, by decide,
    scan_progress two_containers 16 "video_" 0 4 (main_init two_containers 0)
      (stream_at two_containers 32) (two_containers.take 24)
      (by decide) (by decide) (by decide) (by decide) (by decide) (by decide)⟩

/-! ## The names of the output files -/

theorem succ_mod_congr (a b m : Nat) (h : a % m = b % m) : (a + 1) % m = (b + 1) % m := by
  rw [Nat.add_mod, h, ← Nat.add_mod]

theorem main_body_detect (bs : Nat) (base : String) (fuel : Nat) (st st2 : MainState)
    (h : main_body bs base fuel st = some st2) :
    ((is_mov_file st.infile).1 = true
        ∧ (∃ out, st2.files
            = st.files ++ [(base ++ toString ((st.mov_index + 1) % 2 ^ 32) ++ ".mov", out)])
        ∧ st2.mov_index = (st.mov_index + 1) % 2 ^ 32)
      ∨ ((is_mov_file st.infile).1 = false ∧ st2.files = st.files
          ∧ st2.mov_index = st.mov_index) := by
  simp only [main_body] at h
  split_ifs at h with hfound
  · split at h
    · cases h
    · rename_i s2 out _
      simp only [Option.some.injEq] at h
      subst h
      exact Or.inl ⟨hfound, ⟨out, rfl⟩, rfl⟩
  · simp only [Option.some.injEq] at h
    subst h
    refine Or.inr ⟨?_, rfl, rfl⟩
    simpa using hfound

theorem names_step (bs : Nat) (base : String) (idx : Nat) (fuel : Nat) (st st2 : MainState)
    (hI : st.files.map Prod.fst
        = (List.range st.files.length).map
            (fun k => base ++ toString ((idx + (k + 1)) % 2 ^ 32) ++ ".mov")
      ∧ st.mov_index % 2 ^ 32 = (idx + st.files.length) % 2 ^ 32)
    (_hg : st.infile.good = true) (h : main_body bs base fuel st = some st2) :
    st2.files.map Prod.fst
        = (List.range st2.files.length).map
            (fun k => base ++ toString ((idx + (k + 1)) % 2 ^ 32) ++ ".mov")
      ∧ st2.mov_index % 2 ^ 32 = (idx + st2.files.length) % 2 ^ 32 := by
  rcases main_body_detect bs base fuel st st2 h with ⟨-, ⟨out, hf⟩, hm⟩ | ⟨-, hf, hm⟩
  · have hidx : (st.mov_index + 1) % 2 ^ 32 = (idx + (st.files.length + 1)) % 2 ^ 32 := by
      rw [← Nat.add_assoc]
      exact succ_mod_congr _ _ _ hI.2
    constructor
    · rw [hf, List.map_append, List.length_append, List.length_singleton, List.range_succ,
        List.map_append, hI.1, hidx]
      rfl
    · rw [hm, hf, List.length_append, List.length_singleton, Nat.mod_mod, hidx]
  · rw [hf, hm]
    exact hI

/-- C12, a counterexample.  With the initial index 0 and the base name `video_`,
the one container of the input `late_container` is written to `video_1.mov`; the
claim names `video_0.mov`, the file that carries the initial index itself. -/
theorem first_file_index :
    (main late_container 16 "video_" 0 40).map (fun st => st.files.map Prod.fst)
        = some ["video_1.mov"]
      ∧ "video_" ++ toString (0 + 1 - 1) ++ ".mov" = "video_0.mov"
      ∧ (main late_container 16 "video_" 0 40).map (fun st => st.files.map Prod.fst)
        ≠ some ["video_" ++ toString (0 + 1 - 1) ++ ".mov"] := by
  decide

/-- C12, amended.  In every round of the scan loop a successful probe appends
exactly one output file, named with the incremented index
`(mov_index + 1) mod 2 ^ 32`, and a failed probe leaves files and index as they
were; so in the run of `main` from the initial index `idx` the `k`-th output file
(`k = 1, 2, ...`) is named `base ++ decimal((idx + k) mod 2 ^ 32) ++ ".mov"`: the
first file carries the index `idx + 1`. -/
theorem file_names (data : List Byte) (bs : Nat) (base : String) (idx : Nat) (hbs : 1 ≤ bs) :
    (∀ fuel st st2, main_body bs base fuel st = some st2 →
        ((is_mov_file st.infile).1 = true
          ∧ (∃ out, st2.files
              = st.files ++ [(base ++ toString ((st.mov_index + 1) % 2 ^ 32) ++ ".mov", out)])
          ∧ st2.mov_index = (st.mov_index + 1) % 2 ^ 32)
        ∨ ((is_mov_file st.infile).1 = false ∧ st2.files = st.files
            ∧ st2.mov_index = st.mov_index))
      ∧ ∃ st1, (∀ m, main data bs base idx (data.length + 3 + m) = some st1)
          ∧ st1.files.map Prod.fst
            = (List.range st1.files.length).map
                (fun k => base ++ toString ((idx + (k + 1)) % 2 ^ 32) ++ ".mov")
          ∧ st1.mov_index % 2 ^ 32 = (idx + st1.files.length) % 2 ^ 32 := by
  refine ⟨main_body_detect bs base, ?_⟩
  obtain ⟨st1, hst1⟩ :=
    main_total bs base hbs data.length (main_init data idx) (main_init_rest_length data idx)
  have hI0 : (main_init data idx).files.map Prod.fst
        = (List.range (main_init data idx).files.length).map
            (fun k => base ++ toString ((idx + (k + 1)) % 2 ^ 32) ++ ".mov")
      ∧ (main_init data idx).mov_index % 2 ^ 32
        = (idx + (main_init data idx).files.length) % 2 ^ 32 := ⟨rfl, rfl⟩
  exact ⟨st1, hst1, (main_loop_invariant bs base
    (fun st => st.files.map Prod.fst
        = (List.range st.files.length).map
            (fun k => base ++ toString ((idx + (k + 1)) % 2 ^ 32) ++ ".mov")
      ∧ st.mov_index % 2 ^ 32 = (idx + st.files.length) % 2 ^ 32)
    (names_step bs base idx) _ _ st1 hI0 (hst1 0)).1⟩

theorem file_names_witness :
    1 ≤ 16
      ∧ ((∀ fuel st st2, main_body 16 "video_" fuel st = some st2 →
          ((is_mov_file st.infile).1 = true
            ∧ (∃ out, st2.files
                = st.files
                  ++ [("video_" ++ toString ((st.mov_index + 1) % 2 ^ 32) ++ ".mov", out)])
            ∧ st2.mov_index = (st.mov_index + 1) % 2 ^ 32)
          ∨ ((is_mov_file st.infile).1 = false ∧ st2.files = st.files
              ∧ st2.mov_index = st.mov_index))
        ∧ ∃ st1,
            (∀ m, main late_container 16 "video_" 7 (late_container.length + 3 + m) = some st1)
            ∧ st1.files.map Prod.fst
              = (List.range st1.files.length).map
                  (fun k => "video_" ++ toString ((7 + (k + 1)) % 2 ^ 32) ++ ".mov")
            ∧ st1.mov_index % 2 ^ 32 = (7 + st1.files.length) % 2 ^ 32) :=
  ⟨by decide, file_names late_container 16 "video_" 7 (by decide)⟩

/-! ## Copying beyond the end of the input -/

theorem copy_n_pads (s : ifstream) (out : List Byte) (n : Nat) (hg : s.good = true)
    (hn : s.rest.length < n) :
    (copy_n s out n).2 = out ++ s.rest ++ List.replicate (n - s.rest.length) 255
      ∧ (copy_n s out n).2.length = out.length + n
      ∧ (copy_n s out n).1.eof = true := by
  rw [copy_n_gt s out n hg hn]
  refine ⟨rfl, ?_, rfl⟩
  simp only [List.length_append, List.length_replicate]
  omega

theorem carve_big_length (pl : List Byte) (hl : pl.length + 8 < 2 ^ 64 - 2 ^ 31) (k : Nat) :
    carve_loop (k + 2) (stream_at (big_atom_of pl) 0) []
      = some ({ data := big_atom_of pl, pos := pl.length + 8, eofbit := true, failbit := true },
              big_atom_of pl ++ List.replicate (2 ^ 64 - 2 ^ 31 - (pl.length + 8)) 255) := by
  have hg : (stream_at (big_atom_of pl) 0).good = true := rfl
  have hr : (stream_at (big_atom_of pl) 0).rest
      = 0x80 :: 0 :: 0 :: 0 :: 0x66 :: 0x74 :: 0x79 :: 0x70 :: pl := rfl
  have hrl : (stream_at (big_atom_of pl) 0).rest.length = pl.length + 8 := by
    rw [hr]
    rfl
  have hgt : (stream_at (big_atom_of pl) 0).rest.length < 2 ^ 64 - 2 ^ 31 := by
    rw [hrl]
    exact hl
  have h8 : 8 ≤ be32 0x80 0 0 0 := by
    rw [be32_big]
    norm_num
  have hv : is_valid_atom_type [0x66, 0x74, 0x79, 0x70] = true := by decide
  rw [show k + 2 = (k + 1) + 1 by omega,
    carve_copy _ _ [] 0x80 0 0 0 0x66 0x74 0x79 0x70 pl hg hr h8 hv, sext32_big,
    copy_n_gt _ [] _ hg hgt]
  have he : ({ (stream_at (big_atom_of pl) 0).adv (stream_at (big_atom_of pl) 0).rest.length
      with eofbit := true, failbit := true } : ifstream).eof = true := rfl
  rw [carve_eof _ _ _ he, hrl]
  simp only [stream_at, ifstream.adv, ifstream.rest, List.drop_zero, Nat.zero_add,
    List.nil_append, big_atom_of]

/-- C17, the code at a failing input.  The input is the 11 bytes
`80 00 00 00 66 74 79 70 01 02 03`: an `ftyp` header that declares the length
`2 ^ 31`, more than the 11 bytes that remain.  The carve loop ends in end-of-file
state, with an output that starts with the 11 input bytes and has
`2 ^ 64 - 2 ^ 31` bytes, not the declared `2 ^ 31`. -/
theorem carve_truncated_big_length :
    be32 0x80 0 0 0 = 2 ^ 31
      ∧ ∀ k, ∃ s2 out, carve_loop (k + 2) (stream_at (big_atom_of [1, 2, 3]) 0) [] = some (s2, out)
          ∧ s2.eofbit = true ∧ out.take 11 = big_atom_of [1, 2, 3]
          ∧ out.length = 2 ^ 64 - 2 ^ 31 := by
  refine ⟨be32_big, fun k => ⟨_, _, carve_big_length [1, 2, 3] (by norm_num) k, rfl, ?_, ?_⟩⟩
  · exact List.take_left' rfl
  · rw [List.length_append, List.length_replicate, big_atom_of_length]
    norm_num

/-! ## Two containers back to back -/

theorem carve_end_failbit (s : ifstream) (h : s.rest.length < 8) :
    (carve_end s).failbit = true := by
  simp only [carve_end, if_neg (Nat.not_le.2 h)]

theorem atom_ok_length (a : List Byte) (h : atom_ok a = true) : 8 ≤ a.length := by
  obtain ⟨b0, b1, b2, b3, c0, c1, c2, c3, t, hat, -, -⟩ := (atom_ok_iff a).1 h
  rw [hat]
  simp only [List.length_cons]
  omega

/-- C18.  With a block size of at least 1: let the scan be at a block-aligned
offset `s`, in good state, where the rest of the input is a well-formed
container `A` immediately followed by a well-formed container `B` (non-empty
sequences of atoms with correct lengths from 8 to below `2 ^ 31` and recognized
tags, each starting with an `ftyp` atom).
Then the run of the scan loop from there ends after one more probe, at `s`,
having created exactly one more output file, whose content is `A ++ B`, which is
longer than `A`: the carve session goes on through `B`. -/
theorem back_to_back_one_file (data : List Byte) (bs : Nat) (base : String) (st : MainState)
    (s : Nat) (A B : List (List Byte)) (_hbs : 1 ≤ bs) (hs : st.infile = stream_at data s)
    (_hal : s % bs = 0) (hd : data.drop s = A.flatten ++ B.flatten)
    (hA : ∀ a ∈ A, atom_ok a = true ∧ a.length < 2 ^ 31)
    (hB : ∀ b ∈ B, atom_ok b = true ∧ b.length < 2 ^ 31)
    (hA1 : A.head?.map (fun a => (a.drop 4).take 4) = some FTYP)
    (hB1 : B.head?.map (fun b => (b.drop 4).take 4) = some FTYP) :
    ∃ st1, (∀ m, main_loop bs base ((A ++ B).length + 3 + m) st = some st1)
      ∧ st1.files
        = st.files ++ [(base ++ toString ((st.mov_index + 1) % 2 ^ 32) ++ ".mov",
            A.flatten ++ B.flatten)]
      ∧ st1.mov_index = (st.mov_index + 1) % 2 ^ 32
      ∧ st1.probes = st.probes ++ [s]
      ∧ A.flatten.length < (A.flatten ++ B.flatten).length := by
  have hg : st.infile.good = true := by rw [hs]; rfl
  have hrest : st.infile.rest = (A ++ B).flatten ++ [] := by
    rw [hs, List.flatten_append, List.append_nil]
    exact hd
  have hAB : ∀ a ∈ A ++ B, atom_ok a = true ∧ a.length < 2 ^ 31 := by
    intro a ha
    rcases List.mem_append.1 ha with h | h
    · exact hA a h
    · exact hB a h
  cases A with
  | nil => simp at hA1
  | cons a A2 =>
    cases B with
    | nil => simp at hB1
    | cons b B2 =>
      simp only [List.head?_cons, Option.map_some', Option.some.injEq] at hA1
      obtain ⟨b0, b1, b2, b3, c0, c1, c2, c3, t, hat, -, -⟩ :=
        (atom_ok_iff a).1 (hA a (List.mem_cons_self _ _)).1
      have hr8 : st.infile.rest
          = b0 :: b1 :: b2 :: b3 :: c0 :: c1 :: c2 :: c3
              :: (t ++ (A2.flatten ++ (b :: B2).flatten)) := by
        rw [hrest, List.append_nil, List.flatten_append, List.flatten_cons, hat]
        simp only [List.cons_append, List.append_assoc]
      have h8 : 8 ≤ st.infile.rest.length := by
        rw [hr8]
        simp only [List.length_cons]
        omega
      have hft : (st.infile.rest.drop 4).take 4 = FTYP := by
        rw [hr8]
        rw [hat] at hA1
        exact hA1
      have hshort : (st.infile.adv ((a :: A2) ++ (b :: B2)).flatten.length).rest.length < 8 := by
        rw [rest_adv, hrest, List.append_nil, List.length_drop]
        omega
      have hpos : st.infile.pos = s := by rw [hs]; rfl
      refine ⟨{ infile := resync bs
                  (carve_end (st.infile.adv ((a :: A2) ++ (b :: B2)).flatten.length)),
                mov_index := (st.mov_index + 1) % 2 ^ 32,
                files := st.files
                  ++ [(base ++ toString ((st.mov_index + 1) % 2 ^ 32) ++ ".mov",
                       [] ++ ((a :: A2) ++ (b :: B2)).flatten)],
                probes := st.probes ++ [st.infile.pos] }, fun m => ?_, ?_, rfl, ?_, ?_⟩
      · have hc := carve_atoms ((a :: A2) ++ (b :: B2)) [] (m + 1) st.infile [] hg hrest hAB rfl
        rw [show ((a :: A2) ++ (b :: B2)).length + 3 + m
            = (((a :: A2) ++ (b :: B2)).length + 1 + (m + 1)) + 1 by omega,
          main_loop_succ, guard_of_good _ hg]
        simp only [Bool.false_eq_true, if_false, main_body_hit bs base _ st _ _ hg h8 hft hc]
        rw [show ((a :: A2) ++ (b :: B2)).length + 1 + (m + 1)
            = (((a :: A2) ++ (b :: B2)).length + 1 + m) + 1 by omega]
        refine main_loop_done bs base _ _ ?_
        rw [resync_failed bs _ (carve_end_failbit _ hshort)]
        exact carve_end_failbit _ hshort
      · simp only [List.nil_append, List.flatten_append]
      · rw [hpos]
      · have hb := atom_ok_length b (hB b (List.mem_cons_self _ _)).1
        simp only [List.length_append, List.flatten_cons]
        omega

theorem back_to_back_one_file_witness :
    1 ≤ 4
      ∧ (MainState.mk (stream_at back_to_back 4) 0 [] [0]).infile = stream_at back_to_back 4
      ∧ 4 % 4 = 0
      ∧ back_to_back.drop 4 = container_a.flatten ++ container_b.flatten
      ∧ (∀ a ∈ container_a, atom_ok a = true ∧ a.length < 2 ^ 31)
      ∧ (∀ b ∈ container_b, atom_ok b = true ∧ b.length < 2 ^ 31)
      ∧ container_a.head?.map (fun a => (a.drop 4).take 4) = some FTYP
      ∧ container_b.head?.map (fun b => (b.drop 4).take 4) = some FTYP
      ∧ ∃ st1,
          (∀ m, main_loop 4 "video_" ((container_a ++ container_b).length + 3 + m)
              (MainState.mk (stream_at back_to_back 4) 0 [] [0]) = some st1)
          ∧ st1.files
            = (MainState.mk (stream_at back_to_back 4) 0 [] [0]).files
              ++ [("video_" ++ toString
                    (((MainState.mk (stream_at back_to_back 4) 0 [] [0]).mov_index + 1) % 2 ^ 32)
                    ++ ".mov", container_a.flatten ++ container_b.flatten)]
          ∧ st1.mov_index
            = ((MainState.mk (stream_at back_to_back 4) 0 [] [0]).mov_index + 1) % 2 ^ 32
          ∧ st1.probes = (MainState.mk (stream_at back_to_back 4) 0 [] [0]).probes ++ [4]
          ∧ container_a.flatten.length < (container_a.flatten ++ container_b.flatten).length :=
  ⟨by decide, by decide, by decide, by decide, by decide, by decide, by decide, by decide,
    back_to_back_one_file back_to_back 4 "video_" (MainState.mk (stream_at back_to_back 4) 0 [] [0])
      4 container_a container_b (by decide) (by decide) (by decide) (by decide) (by decide)
      (by decide) (by decide) (by decide)⟩

/-! ## The end-to-end scenario -/

theorem scan_no_block_match (bs : Nat) (base : String) (hbs : 1 ≤ bs) (n : Nat)
    (st : MainState) (hg : st.infile.good = true) (hn : st.infile.rest.length ≤ n)
    (hno : ∀ j, (st.infile.data.drop (st.infile.pos + j * bs + 4)).take 4 ≠ FTYP) :
    ∃ st1, (∀ k, main_loop bs base (n + 2 + k) st = some st1) ∧ st1.files = st.files
      ∧ st1.mov_index = st.mov_index ∧ st1.infile.failbit = true := by
  induction n generalizing st with
  | zero =>
    have h0 : st.infile.rest.length < 8 := by omega
    refine ⟨{ st with
        infile := { data := st.infile.data,
                    pos := st.infile.pos + max 4 st.infile.rest.length,
                    eofbit := false, failbit := true },
        probes := st.probes ++ [st.infile.pos] }, fun k => ?_, rfl, rfl, rfl⟩
    rw [show 0 + 2 + k = (k + 1) + 1 by omega, main_loop_succ, guard_of_good _ hg]
    simp only [Bool.false_eq_true, if_false, main_body_short bs base _ st hg h0]
    exact main_loop_done bs base _ _ rfl
  | succ n ih =>
    rcases Nat.lt_or_ge st.infile.rest.length 8 with h8 | h8
    · refine ⟨{ st with
          infile := { data := st.infile.data,
                      pos := st.infile.pos + max 4 st.infile.rest.length,
                      eofbit := false, failbit := true },
          probes := st.probes ++ [st.infile.pos] }, fun k => ?_, rfl, rfl, rfl⟩
      rw [show n + 1 + 2 + k = ((n + 1 + k) + 1) + 1 by omega, main_loop_succ,
        guard_of_good _ hg]
      simp only [Bool.false_eq_true, if_false, main_body_short bs base _ st hg h8]
      exact main_loop_done bs base _ _ rfl
    · have hne : (st.infile.rest.drop 4).take 4 ≠ FTYP := by
        rw [drop_rest]
        have := hno 0
        rw [Nat.zero_mul, Nat.add_zero] at this
        exact this
      have hlen : (st.infile.adv bs).rest.length ≤ n := by
        rw [rest_adv, List.length_drop]
        omega
      have hno2 : ∀ j, ((st.infile.adv bs).data.drop ((st.infile.adv bs).pos + j * bs + 4)).take 4
          ≠ FTYP := by
        intro j
        have := hno (j + 1)
        rw [Nat.succ_mul] at this
        simp only [ifstream.adv]
        rw [show st.infile.pos + bs + j * bs + 4 = st.infile.pos + (j * bs + bs) + 4 by omega]
        exact this
      obtain ⟨st1, hrun, hf, hi, hfail⟩ := ih
        { st with infile := st.infile.adv bs, probes := st.probes ++ [st.infile.pos] }
        hg hlen hno2
      refine ⟨st1, fun k => ?_, hf, hi, hfail⟩
      rw [show n + 1 + 2 + k = (n + 2 + k) + 1 by omega, main_loop_succ, guard_of_good _ hg]
      simp only [Bool.false_eq_true, if_false, main_body_miss bs base _ st hg h8 hne]
      exact hrun k

theorem stops_append (junk rest : List Byte) (hj : 8 ≤ junk.length) :
    stops (junk ++ rest) = stops junk := by
  obtain ⟨b0, b1, b2, b3, c0, c1, c2, c3, t, rfl⟩ := exists_eight junk hj
  rfl

theorem quiet_rest_blocks : ∀ j, (quiet_rest.drop (16 * j + 4)).take 4 ≠ FTYP := by
  intro j h
  have hl := length_of_take_four _ h
  rw [List.length_drop] at hl
  have hlen : quiet_rest.length = 32 := rfl
  have hj : j = 0 ∨ j = 1 := by omega
  rcases hj with rfl | rfl
  · exact absurd h (by decide)
  · exact absurd h (by decide)

theorem scenario_eq (payload junk rest : List Byte) :
    scenario payload junk rest
      = [0 :: 0 :: 0 :: 16 :: 0x66 :: 0x74 :: 0x79 :: 0x70 :: payload,
         [0, 0, 0, 8, 0x6d, 0x6f, 0x6f, 0x76]].flatten ++ (junk ++ rest) := by
  simp only [scenario, List.flatten_cons, List.flatten_nil, List.append_nil, List.cons_append,
    List.append_assoc, List.nil_append]

theorem scenario_atoms (payload : List Byte) (hp : payload.length = 8) :
    ∀ a ∈ [0 :: 0 :: 0 :: 16 :: 0x66 :: 0x74 :: 0x79 :: 0x70 :: payload,
           [0, 0, 0, 8, 0x6d, 0x6f, 0x6f, 0x76]],
      atom_ok a = true ∧ a.length < 2 ^ 31 := by
  intro a ha
  simp only [List.mem_cons, List.mem_singleton, List.not_mem_nil, or_false] at ha
  rcases ha with rfl | rfl
  · constructor
    · rw [atom_ok_iff]
      refine ⟨0, 0, 0, 16, 0x66, 0x74, 0x79, 0x70, payload, rfl, ?_, by decide⟩
      simp only [List.length_cons, hp]
      decide
    · simp only [List.length_cons, hp]
      norm_num
  · exact ⟨by decide, by decide⟩

theorem scenario_flat_length (payload : List Byte) (hp : payload.length = 8) :
    ([0 :: 0 :: 0 :: 16 :: 0x66 :: 0x74 :: 0x79 :: 0x70 :: payload,
      [0, 0, 0, 8, 0x6d, 0x6f, 0x6f, 0x76]] : List (List Byte)).flatten.length = 24 := by
  simp only [List.flatten_cons, List.flatten_nil, List.length_append, List.length_cons,
    List.length_nil, hp]

/-- C11.  With block size 16, on the input made of the `ftyp` atom of length 16
(any 8 payload bytes), the `moov` atom of length 8, 8 bytes that are not a valid
header, and further blocks none of which has `ftyp` at its bytes 4 to 7, the run
of `main` ends with exactly one output file, whose content is the first 24 bytes
of the input. -/
theorem scenario_one_file (payload junk rest : List Byte) (base : String) (idx : Nat)
    (hp : payload.length = 8) (hj : junk.length = 8) (hs : stops junk = true)
    (hrest : ∀ j, (rest.drop (16 * j + 4)).take 4 ≠ FTYP) :
    ∃ st1,
      (∀ m, main (scenario payload junk rest) 16 base idx
          ((scenario payload junk rest).length + 3 + m) = some st1)
      ∧ st1.files = [(base ++ toString ((idx + 1) % 2 ^ 32) ++ ".mov",
          (scenario payload junk rest).take 24)]
      ∧ ((scenario payload junk rest).take 24).length = 24 := by
  have hfl := scenario_flat_length payload hp
  have hdata := scenario_eq payload junk rest
  have hlen : (scenario payload junk rest).length = 32 + rest.length := by
    rw [hdata, List.length_append, List.length_append, hfl, hj]
    omega
  have hg : (main_init (scenario payload junk rest) idx).infile.good = true := rfl
  have hr : (main_init (scenario payload junk rest) idx).infile.rest
      = [0 :: 0 :: 0 :: 16 :: 0x66 :: 0x74 :: 0x79 :: 0x70 :: payload,
         [0, 0, 0, 8, 0x6d, 0x6f, 0x6f, 0x76]].flatten ++ (junk ++ rest) := by
    rw [← hdata]
    rfl
  have hstop : stops (junk ++ rest) = true := by
    rw [stops_append junk rest (by omega)]
    exact hs
  have h8 : 8 ≤ (main_init (scenario payload junk rest) idx).infile.rest.length := by
    rw [rest_length]
    simp only [main_init, hlen]
    omega
  have hft : ((main_init (scenario payload junk rest) idx).infile.rest.drop 4).take 4 = FTYP :=
    rfl
  have htake : (scenario payload junk rest).take 24
      = [0 :: 0 :: 0 :: 16 :: 0x66 :: 0x74 :: 0x79 :: 0x70 :: payload,
         [0, 0, 0, 8, 0x6d, 0x6f, 0x6f, 0x76]].flatten := by
    rw [hdata]
    exact List.take_left' hfl
  have hend : carve_end ((main_init (scenario payload junk rest) idx).infile.adv 24)
      = stream_at (scenario payload junk rest) 32 := by
    have hl : 8 ≤ ((main_init (scenario payload junk rest) idx).infile.adv 24).rest.length := by
      rw [rest_adv, hr, List.length_drop, List.length_append, List.length_append, hfl, hj]
      omega
    simp only [carve_end, hl, if_true]
    rfl
  have hres : resync 16 (stream_at (scenario payload junk rest) 32)
      = stream_at (scenario payload junk rest) 48 := by
    rw [resync_good 16 _ (show (stream_at (scenario payload junk rest) 32).good = true from rfl)]
    simp only [stream_at]
  have hdrop : ∀ x, (scenario payload junk rest).drop (32 + x) = rest.drop x := by
    intro x
    rw [← List.drop_drop, hdata, ← List.append_assoc,
      List.drop_left' (by rw [List.length_append, hfl, hj])]
  have hno : ∀ j, ((stream_at (scenario payload junk rest) 48).data.drop
      ((stream_at (scenario payload junk rest) 48).pos + j * 16 + 4)).take 4 ≠ FTYP := by
    intro j
    have := hrest (j + 1)
    simp only [stream_at]
    rw [show 48 + j * 16 + 4 = 32 + (16 * (j + 1) + 4) by omega, hdrop]
    exact this
  obtain ⟨st1, hrun, hfiles, -, -⟩ := scan_no_block_match 16 base (by norm_num)
    (stream_at (scenario payload junk rest) 48).rest.length
    { infile := stream_at (scenario payload junk rest) 48,
      mov_index := ((main_init (scenario payload junk rest) idx).mov_index + 1) % 2 ^ 32,
      files := (main_init (scenario payload junk rest) idx).files
        ++ [(base ++ toString
              (((main_init (scenario payload junk rest) idx).mov_index + 1) % 2 ^ 32) ++ ".mov",
            [] ++ [0 :: 0 :: 0 :: 16 :: 0x66 :: 0x74 :: 0x79 :: 0x70 :: payload,
                   [0, 0, 0, 8, 0x6d, 0x6f, 0x6f, 0x76]].flatten)],
      probes := (main_init (scenario payload junk rest) idx).probes
        ++ [(main_init (scenario payload junk rest) idx).infile.pos] }
    rfl (Nat.le_refl _) hno
  have hn : (stream_at (scenario payload junk rest) 48).rest.length
      ≤ (scenario payload junk rest).length := by
    rw [rest_length]
    exact Nat.sub_le _ _
  refine ⟨st1, fun m => ?_, ?_, ?_⟩
  · have hc := carve_atoms
      [0 :: 0 :: 0 :: 16 :: 0x66 :: 0x74 :: 0x79 :: 0x70 :: payload,
       [0, 0, 0, 8, 0x6d, 0x6f, 0x6f, 0x76]] (junk ++ rest)
      ((scenario payload junk rest).length - 1 + m)
      (main_init (scenario payload junk rest) idx).infile [] hg hr
      (scenario_atoms payload hp) hstop
    rw [hfl, hend] at hc
    have hfuel : ([0 :: 0 :: 0 :: 16 :: 0x66 :: 0x74 :: 0x79 :: 0x70 :: payload,
        [0, 0, 0, 8, 0x6d, 0x6f, 0x6f, 0x76]] : List (List Byte)).length + 1
          + ((scenario payload junk rest).length - 1 + m)
        = (scenario payload junk rest).length + 2 + m := by
      simp only [List.length_cons, List.length_nil]
      omega
    rw [hfuel] at hc
    unfold main
    rw [show (scenario payload junk rest).length + 3 + m
        = ((scenario payload junk rest).length + 2 + m) + 1 by omega,
      main_loop_succ, guard_of_good _ hg]
    simp only [Bool.false_eq_true, if_false, main_body_hit 16 base _ _ _ _ hg h8 hft hc, hres]
    have := hrun ((scenario payload junk rest).length
      - (stream_at (scenario payload junk rest) 48).rest.length + m)
    rw [show (stream_at (scenario payload junk rest) 48).rest.length + 2
        + ((scenario payload junk rest).length
          - (stream_at (scenario payload junk rest) 48).rest.length + m)
        = (scenario payload junk rest).length + 2 + m by omega] at this
    exact this
  · rw [hfiles, htake]
    rfl
  · rw [htake, hfl]

theorem scenario_one_file_witness :
    ([1, 2, 3, 4, 5, 6, 7, 8] : List Byte).length = 8
      ∧ ([9, 9, 9, 9, 9, 9, 9, 9] : List Byte).length = 8
      ∧ stops [9, 9, 9, 9, 9, 9, 9, 9] = true
      ∧ (∀ j, (quiet_rest.drop (16 * j + 4)).take 4 ≠ FTYP)
      ∧ ∃ st1,
          (∀ m, main (scenario [1, 2, 3, 4, 5, 6, 7, 8] [9, 9, 9, 9, 9, 9, 9, 9] quiet_rest) 16
              "video_" 0
              ((scenario [1, 2, 3, 4, 5, 6, 7, 8] [9, 9, 9, 9, 9, 9, 9, 9] quiet_rest).length
                + 3 + m) = some st1)
          ∧ st1.files = [("video_" ++ toString ((0 + 1) % 2 ^ 32) ++ ".mov",
              (scenario [1, 2, 3, 4, 5, 6, 7, 8] [9, 9, 9, 9, 9, 9, 9, 9] quiet_rest).take 24)]
          ∧ ((scenario [1, 2, 3, 4, 5, 6, 7, 8] [9, 9, 9, 9, 9, 9, 9, 9] quiet_rest).take
              24).length = 24 :=
  ⟨by decide, by decide, by decide, quiet_rest_blocks,
    scenario_one_file [1, 2, 3, 4, 5, 6, 7, 8] [9, 9, 9, 9, 9, 9, 9, 9] quiet_rest "video_" 0
      (by decide) (by decide) (by decide) quiet_rest_blocks⟩

end Recovermov
